import Mathlib

/-!
Verification of the LXD container-engine core (instance driver, device
scheduler, operation registry) against its specification.

The Go source is shallowly embedded: Go strings become `List Char`
(written via string-literal `.data`), Go `int`/`int64` become `Int`,
Go maps become association lists, fallible functions return `Option` or
`Except`.  Each embedded definition mirrors one function of the source
tree (`lxd/container_lxc.go`, `lxd/devices.go`, storage utilities), and
the theorems at the end of the file settle the specification claims.
-/

namespace LxdSpec

/-! ### Basic string model

Go strings are modelled as `List Char`.  The helpers below mirror the
`strings` standard-library functions used by the source. -/

/-- `strings.Split` / `strings.SplitN(s, sep, -1)` for a one-character
separator, helper with accumulator. -/
def splitOnCharAux (c : Char) : List Char → List Char → List (List Char)
  | [], acc => [acc.reverse]
  | x :: xs, acc =>
    if x = c then acc.reverse :: splitOnCharAux c xs []
    else splitOnCharAux c xs (x :: acc)

/-- `strings.Split(s, c)` for a one-character separator. -/
def splitOnChar (c : Char) (s : List Char) : List (List Char) :=
  splitOnCharAux c s []

/-- `strings.Contains(s, c)` for a one-character substring. -/
def containsChar (c : Char) (s : List Char) : Bool :=
  s.any (· = c)

/-- `strings.HasPrefix`. -/
def hasPrefixL : List Char → List Char → Bool
  | [], _ => true
  | _ :: _, [] => false
  | a :: as, b :: bs => a = b && hasPrefixL as bs

/-- `strings.Join(l, ",")`. -/
def joinComma : List (List Char) → List Char
  | [] => []
  | [x] => x
  | x :: xs => x ++ ',' :: joinComma xs

/-- Decimal digit value, or `none` for a non-digit. -/
def digitVal (c : Char) : Option Nat :=
  if '0' ≤ c ∧ c ≤ '9' then some (c.toNat - '0'.toNat) else none

/-- Accumulate decimal digits; the `Option` accumulator rejects an empty
digit string, as `strconv.ParseInt` does. -/
def digitsToNat : List Char → Option Nat → Option Nat
  | [], acc => acc
  | c :: cs, acc =>
    match digitVal c, acc with
    | some d, some n => digitsToNat cs (some (n * 10 + d))
    | some d, none => digitsToNat cs (some d)
    | none, _ => none

/-- `strconv.Atoi` / `strconv.ParseInt(s, 10, 64)`: an optional single
sign followed by a non-empty digit string, subject to the int64 range.
(Range checking matters only for pathological inputs; it is included for
fidelity.) -/
def goAtoi (s : List Char) : Option Int :=
  match s with
  | '+' :: rest =>
    (digitsToNat rest none).bind fun n =>
      if (n : Int) ≤ 9223372036854775807 then some (n : Int) else none
  | '-' :: rest =>
    (digitsToNat rest none).bind fun n =>
      if (n : Int) ≤ 9223372036854775808 then some (-(n : Int)) else none
  | rest =>
    (digitsToNat rest none).bind fun n =>
      if (n : Int) ≤ 9223372036854775807 then some (n : Int) else none

/-! ### `parseCpuset` (lxd/devices.go) -/

/-- The integers contributed by a range chunk `low-high`:
`for i := low; i <= high; i++` (empty when `low > high`). -/
def rangeInts (low high : Int) : List Int :=
  (List.range (high + 1 - low).toNat).map (fun i => low + (i : Int))

/-- `strings.SplitN(chunk, "-", 2)` restricted to chunks that contain a
dash: the part before the first dash and the part after it, via an
accumulator. -/
def splitFirstAux (c : Char) : List Char → List Char → (List Char × List Char)
  | [], acc => (acc.reverse, [])
  | x :: xs, acc => if x = c then (acc.reverse, xs) else splitFirstAux c xs (x :: acc)

/-- One chunk of `parseCpuset`: a chunk containing `-` takes the range
branch (split at the first dash, both halves through `strconv.Atoi`),
any other chunk is a single `strconv.Atoi` entry. -/
def parseChunk (chunk : List Char) : Option (List Int) :=
  if containsChar '-' chunk then
    match goAtoi (splitFirstAux '-' chunk []).1, goAtoi (splitFirstAux '-' chunk []).2 with
    | some low, some high => some (rangeInts low high)
    | _, _ => none
  else
    (goAtoi chunk).map (fun n => [n])

/-- The chunk loop of `parseCpuset`, accumulating left-to-right and
failing on the first bad chunk. -/
def parseChunks : List (List Char) → Option (List Int)
  | [] => some []
  | ch :: rest =>
    match parseChunk ch, parseChunks rest with
    | some xs, some ys => some (xs ++ ys)
    | _, _ => none

/-- `parseCpuset` of lxd/devices.go: split the input on commas and parse
every chunk. -/
def parseCpuset (cpu : List Char) : Option (List Int) :=
  parseChunks (splitOnChar ',' cpu)

/-- Index of the first occurrence of a character, or `none`. -/
def firstIdxOf (c : Char) : List Char → Option Nat
  | [] => none
  | x :: xs => if x = c then some 0 else (firstIdxOf c xs).map (· + 1)

/-- Spec-side chunk parser, following the amended claim text: a chunk is
split at its first dash when one exists (located by index), otherwise it
must be a plain Go integer. -/
def specChunkParse (ch : List Char) : Option (List Int) :=
  match firstIdxOf '-' ch with
  | none => (goAtoi ch).map (fun n => [n])
  | some i =>
    match goAtoi (ch.take i), goAtoi (ch.drop (i + 1)) with
    | some low, some high => some (rangeInts low high)
    | _, _ => none

/-- Spec-side whole-string parser: parse each comma-separated chunk and
concatenate the contributions in order; fail exactly when some chunk
fails. -/
def specParseCpuset (cpu : List Char) : Option (List Int) :=
  let chunks := splitOnChar ',' cpu
  if chunks.all (fun ch => (specChunkParse ch).isSome) then
    some ((chunks.map (fun ch => (specChunkParse ch).getD [])).flatten)
  else none

/-- Is the chunk a decimal integer (in the `strconv.Atoi` sense, an
optional sign and digits)?  Used to state the original claim. -/
def specIsDecimalInt (ch : List Char) : Bool :=
  (goAtoi ch).isSome

/-- Is the chunk of the form `A-B` with both `A` and `B` decimal
integers (for some split of the chunk at a dash)?  Used to state the
original claim. -/
def specIsRangeForm (ch : List Char) : Bool :=
  (List.range ch.length).any fun i =>
    ch.get? i = some '-' && (goAtoi (ch.take i)).isSome && (goAtoi (ch.drop (i + 1))).isSome

lemma splitFirstAux_eq_firstIdxOf (c : Char) :
    ∀ (l acc : List Char), splitFirstAux c l acc =
      match firstIdxOf c l with
      | some i => (acc.reverse ++ l.take i, l.drop (i + 1))
      | none => (acc.reverse ++ l, []) := by
  intro l
  induction l with
  | nil => intro acc; simp [splitFirstAux, firstIdxOf]
  | cons x xs ih =>
    intro acc
    by_cases hx : x = c
    · simp [splitFirstAux, firstIdxOf, hx]
    · simp only [splitFirstAux, firstIdxOf, if_neg hx, ih (x :: acc)]
      cases h : firstIdxOf c xs with
      | none => simp
      | some j => simp [List.take_succ_cons, List.drop_succ_cons]

lemma containsChar_iff_firstIdxOf (c : Char) :
    ∀ l : List Char, containsChar c l = false ↔ firstIdxOf c l = none := by
  intro l
  induction l with
  | nil => simp [containsChar, firstIdxOf]
  | cons x xs ih =>
    by_cases hx : x = c
    · simp [containsChar, firstIdxOf, hx]
    · simpa [containsChar, firstIdxOf, hx] using ih

lemma parseChunk_eq_specChunkParse (ch : List Char) :
    parseChunk ch = specChunkParse ch := by
  unfold parseChunk specChunkParse
  cases h : firstIdxOf '-' ch with
  | none =>
    have hc : containsChar '-' ch = false := (containsChar_iff_firstIdxOf '-' ch).mpr h
    simp [hc]
  | some i =>
    have hc : containsChar '-' ch = true := by
      cases hcc : containsChar '-' ch
      · rw [(containsChar_iff_firstIdxOf '-' ch).mp hcc] at h; cases h
      · rfl
    simp only [hc, if_true, splitFirstAux_eq_firstIdxOf '-' ch [], h]
    simp

lemma parseChunks_eq_spec (chunks : List (List Char)) :
    parseChunks chunks =
      if chunks.all (fun ch => (specChunkParse ch).isSome) then
        some ((chunks.map (fun ch => (specChunkParse ch).getD [])).flatten)
      else none := by
  induction chunks with
  | nil => simp [parseChunks]
  | cons ch rest ih =>
    simp only [parseChunks, parseChunk_eq_specChunkParse, ih, List.all_cons]
    by_cases hrest : rest.all (fun c => (specChunkParse c).isSome)
    · simp only [hrest, Bool.and_true, if_true, List.map_cons, List.flatten_cons]
      cases h : specChunkParse ch with
      | none => simp [h]
      | some xs => simp [h]
    · simp only [hrest, Bool.and_false, if_false, List.map_cons, List.flatten_cons]
      cases h : specChunkParse ch with
      | none => simp [h]
      | some xs => simp [h, hrest]

/-- C10 (counterexample): on input `-1` the single chunk is a decimal
integer (`strconv.Atoi` accepts it), so the claim predicts success, yet
`parseCpuset` errors: any chunk containing a dash is forced down the
range branch, whose left half `""` fails to parse. -/
theorem parseCpuset_counterexample :
    parseCpuset "-1".data = none ∧
      ((splitOnChar ',' "-1".data).all fun ch =>
        specIsDecimalInt ch || specIsRangeForm ch) = true := by
  decide

/-- C10 (amended): `parseCpuset` splits on commas; a chunk containing a
dash is always split at its first dash into `A-B` and errors unless both
halves are Go integers (so a signed plain chunk such as `-1` is
rejected), contributing `A..B` inclusive (empty when `A > B`); a chunk
without a dash must be a Go integer and contributes that integer; the
result is the in-order concatenation of the contributions, and an error
is returned exactly when some chunk fails its respective parse. -/
theorem parseCpuset_eq_specParseCpuset (cpu : List Char) :
    parseCpuset cpu = specParseCpuset cpu := by
  unfold parseCpuset specParseCpuset
  exact parseChunks_eq_spec (splitOnChar ',' cpu)

/-! ### `lxdResolveMountoptions` (storage utilities)

The `MountOptions` table maps option tokens to a capture bit and a
`unix.MS_*` mount flag; flags are 64-bit `uintptr` values. -/

/-- The `MountOptions` map, with the numeric values of the
`golang.org/x/sys/unix` `MS_*` constants on linux. -/
def mountOptionsTable : List (List Char × Bool × Nat) :=
  [("async".data, false, 0x10),
   ("atime".data, false, 0x400),
   ("bind".data, true, 0x1000),
   ("defaults".data, true, 0),
   ("dev".data, false, 0x4),
   ("diratime".data, false, 0x800),
   ("dirsync".data, true, 0x80),
   ("exec".data, false, 0x8),
   ("lazytime".data, true, 0x2000000),
   ("mand".data, true, 0x40),
   ("noatime".data, true, 0x400),
   ("nodev".data, true, 0x4),
   ("nodiratime".data, true, 0x800),
   ("noexec".data, true, 0x8),
   ("nomand".data, false, 0x40),
   ("norelatime".data, false, 0x200000),
   ("nostrictatime".data, false, 0x1000000),
   ("nosuid".data, true, 0x2),
   ("rbind".data, true, 0x5000),
   ("relatime".data, true, 0x200000),
   ("remount".data, true, 0x20),
   ("ro".data, true, 0x1),
   ("rw".data, false, 0x1),
   ("strictatime".data, true, 0x1000000),
   ("suid".data, false, 0x2),
   ("sync".data, true, 0x10)]

/-- Go map lookup `MountOptions[opt]`. -/
def lookupMountOption (k : List Char) : Option (Bool × Nat) :=
  (mountOptionsTable.find? (fun e => e.1 = k)).map (·.2)

/-- All 64 bits of a `uintptr`. -/
def uintptrMask : Nat := 2 ^ 64 - 1

/-- One table hit applied to the flag accumulator:
`mountFlags |= do.flag` when the capture bit is set, otherwise
`mountFlags &= ^do.flag` (64-bit complement). -/
def applyMountFlag (flags : Nat) (e : Bool × Nat) : Nat :=
  if e.1 then flags ||| e.2 else flags &&& (uintptrMask ^^^ e.2)

/-- The token loop of `lxdResolveMountoptions`: the source deletes each
recognized token from the slice in place and keeps scanning; this is
the same as recursing over the token list, dropping recognized tokens
and threading the flag accumulator. -/
def resolveLoop : List (List Char) → Nat → Nat × List (List Char)
  | [], flags => (flags, [])
  | opt :: rest, flags =>
    match lookupMountOption opt with
    | none =>
      let r := resolveLoop rest flags
      (r.1, opt :: r.2)
    | some e => resolveLoop rest (applyMountFlag flags e)

/-- `lxdResolveMountoptions`: split on commas, fold the recognized
tokens into mount flags, return the flags and the unrecognized tokens
rejoined by commas. -/
def lxdResolveMountoptions (options : List Char) : Nat × List Char :=
  let r := resolveLoop (splitOnChar ',' options) 0
  (r.1, joinComma r.2)

/-- Spec-side description of `lxdResolveMountoptions` following the
claim: remove every token that is a table key, rejoin the remaining
tokens in order, and fold the recognized tokens in order (OR when the
capture bit is true, clear when false). -/
def specResolveMountoptions (options : List Char) : Nat × List Char :=
  let tokens := splitOnChar ',' options
  ((tokens.filterMap lookupMountOption).foldl applyMountFlag 0,
   joinComma (tokens.filter (fun t => (lookupMountOption t).isNone)))

lemma resolveLoop_eq_spec (tokens : List (List Char)) :
    ∀ flags, resolveLoop tokens flags =
      ((tokens.filterMap lookupMountOption).foldl applyMountFlag flags,
       tokens.filter (fun t => (lookupMountOption t).isNone)) := by
  induction tokens with
  | nil => intro flags; simp [resolveLoop]
  | cons opt rest ih =>
    intro flags
    cases h : lookupMountOption opt with
    | none => simp [resolveLoop, h, ih, List.filterMap_cons, List.filter_cons]
    | some e => simp [resolveLoop, h, ih, List.filterMap_cons, List.filter_cons]

/-- C9: `lxdResolveMountoptions` splits its input on commas, removes
every token that is a key of the `MountOptions` table from the returned
remainder (the unrecognized tokens keep their relative order and are
rejoined by commas), and computes the flags by folding over the
recognized tokens in order, OR-ing in a token's flag when its capture
bit is true and clearing that flag when it is false. -/
theorem lxdResolveMountoptions_eq_spec (options : List Char) :
    lxdResolveMountoptions options = specResolveMountoptions options := by
  unfold lxdResolveMountoptions specResolveMountoptions
  simp [resolveLoop_eq_spec]

/-! ### `findIdmap` (lxd/container_lxc.go): isolated allocation

The isolated no-base path of `findIdmap` collects one `(Hostid,
Maprange)` entry per other isolated non-privileged container, sorts
them by `Hostid` (`idmap.ByHostid`) and scans for a free offset.  Only
the offset computation is modelled; the construction of the two-entry
uid/gid set at the returned offset and the `AddSafe` merging of
`raw.idmap` lines live in `shared/idmap`, outside the selected
sources, and do not affect the chosen offset. -/

/-- One recorded allocation: `volatile.idmap.base` and the container's
idmap size. -/
structure IdmapEntry where
  hostid : Int
  maprange : Int
deriving DecidableEq

/-- `Hostid + Maprange`, the end of the recorded host range. -/
def entryEnd (e : IdmapEntry) : Int := e.hostid + e.maprange

/-- The `for i := range mapentries` loop of `findIdmap` for `i ≥ 1`:
`prev` is `mapentries[i-1]`, the head of the list is `mapentries[i]`,
and `offset` is the mutable offset entering iteration `i`. -/
def allocRest (size : Int) (offset : Int) (prev : IdmapEntry) :
    List IdmapEntry → Int ⊕ Int
  | [] => Sum.inr offset
  | cur :: rest =>
    if entryEnd prev > offset then
      allocRest size (entryEnd prev) cur rest
    else
      if entryEnd prev + size < cur.hostid then Sum.inl (entryEnd prev)
      else allocRest size (entryEnd cur) cur rest

/-- Iteration `i = 0` of the same loop: if the first sorted entry
begins below `offset + size` the scan moves past it, otherwise the
initial offset is returned. -/
def allocFirst (size offset : Int) : List IdmapEntry → Int ⊕ Int
  | [] => Sum.inr offset
  | e0 :: rest =>
    if e0.hostid < offset + size then allocRest size (entryEnd e0) e0 rest
    else Sum.inl offset

/-- Insert an entry into a list sorted by ascending `Hostid`. -/
def insertEntry (e : IdmapEntry) : List IdmapEntry → List IdmapEntry
  | [] => [e]
  | x :: xs => if e.hostid ≤ x.hostid then e :: x :: xs else x :: insertEntry e xs

/-- `sort.Sort(idmap.ByHostid)`: sort the recorded entries by ascending
`Hostid` (insertion sort; Go's unstable sort produces some permutation
sorted the same way). -/
def sortByHostid : List IdmapEntry → List IdmapEntry
  | [] => []
  | x :: xs => insertEntry x (sortByHostid xs)

/-- The offset search of `findIdmap`: start at host base + 65536, sort
the recorded entries by `Hostid`, scan, and after the loop accept the
final offset only if it ends strictly below the end of the host's
backing range; `none` is the "Not enough uid/gid available for the
container" failure. -/
def findIdmapOffset (hostBase hostRange size : Int)
    (others : List IdmapEntry) : Option Int :=
  let offset := hostBase + 65536
  let sorted := sortByHostid others
  match allocFirst size offset sorted with
  | Sum.inl off => some off
  | Sum.inr off =>
    if off + size < hostBase + hostRange then some off else none

/-- The fields of another container that `findIdmap` reads. -/
structure IdmapCtn where
  name : List Char
  privileged : Bool
  isolated : Bool
  volatileBase : List Char
  sizeCfg : List Char

/-- `idmapSize` for an isolated container: empty or `auto` size means
65536, anything else goes through `strconv.ParseInt`. -/
def idmapSizeIsolated (sizeCfg : List Char) : Option Int :=
  if sizeCfg = [] ∨ sizeCfg = "auto".data then some 65536 else goAtoi sizeCfg

/-- The `mapentries` collection loop of `findIdmap`: skip the container
itself, privileged containers and non-isolated containers; an empty
`volatile.idmap.base` counts as base 0; a parse failure aborts. -/
def collectMapentries (cName : List Char) : List IdmapCtn → Option (List IdmapEntry)
  | [] => some []
  | c :: cs =>
    if c.name = cName ∨ c.privileged ∨ ¬ c.isolated then
      collectMapentries cName cs
    else
      match (if c.volatileBase = [] then some 0 else goAtoi c.volatileBase),
        idmapSizeIsolated c.sizeCfg, collectMapentries cName cs with
      | some base, some sz, some rest => some (⟨base, sz⟩ :: rest)
      | _, _, _ => none

instance {ε α : Type} [DecidableEq ε] [DecidableEq α] : DecidableEq (Except ε α) := fun a b =>
  match a, b with
  | .error e, .error f =>
    if h : e = f then isTrue (congrArg Except.error h)
    else isFalse (fun hc => h (Except.error.inj hc))
  | .error _, .ok _ => isFalse (fun hc => Except.noConfusion hc)
  | .ok _, .error _ => isFalse (fun hc => Except.noConfusion hc)
  | .ok a, .ok b =>
    if h : a = b then isTrue (congrArg Except.ok h)
    else isFalse (fun hc => h (Except.ok.inj hc))

/-- The isolated no-base path of `findIdmap`, from collecting the other
containers' entries to the allocated offset or the failure message. -/
def findIdmapAuto (hostBase hostRange size : Int) (cName : List Char)
    (cts : List IdmapCtn) : Except (List Char) Int :=
  match collectMapentries cName cts with
  | none => Except.error "strconv.ParseInt: parsing error".data
  | some entries =>
    match findIdmapOffset hostBase hostRange size entries with
    | some off => Except.ok off
    | none => Except.error "Not enough uid/gid available for the container".data

/-- The claim's validity predicate for an offset: at or above host base
+ 65536, the requested range overlaps no recorded range and fits inside
the host's backing sub-id range. -/
def specOffsetOk (hostBase hostRange size off : Int)
    (entries : List IdmapEntry) : Bool :=
  decide (hostBase + 65536 ≤ off) &&
    decide (off + size ≤ hostBase + hostRange) &&
    entries.all (fun e => decide (off + size ≤ e.hostid) || decide (entryEnd e ≤ off))

/-- Two recorded host ranges do not intersect. -/
def entriesDisjoint (a b : IdmapEntry) : Prop :=
  entryEnd a ≤ b.hostid ∨ entryEnd b ≤ a.hostid

/-- `a` ends at or before `b` starts: the shape of the sorted entry
list when the recorded ranges are disjoint. -/
def chainRel (a b : IdmapEntry) : Prop := entryEnd a ≤ b.hostid

lemma allocRest_spec (size : Int) :
    ∀ (rest : List IdmapEntry) (prev : IdmapEntry) (offset : Int),
      offset = entryEnd prev →
      List.Pairwise chainRel (prev :: rest) →
      (∀ e ∈ prev :: rest, 0 < e.maprange) →
      (match allocRest size offset prev rest with
       | Sum.inl off => entryEnd prev ≤ off ∧
           ∀ e ∈ prev :: rest, off + size ≤ e.hostid ∨ entryEnd e ≤ off
       | Sum.inr off => ∀ e ∈ prev :: rest, entryEnd e ≤ off) := by
  intro rest
  induction rest with
  | nil =>
    intro prev offset hoff _ _
    simp only [allocRest]
    intro e he
    simp only [List.mem_singleton] at he
    subst he hoff
    exact le_refl _
  | cons cur rest ih =>
    intro prev offset hoff hchain hpos
    have hnotgt : ¬ (entryEnd prev > offset) := by omega
    have hprevcur : chainRel prev cur :=
      List.rel_of_pairwise_cons hchain (List.mem_cons_self cur rest)
    have hcurpos : 0 < cur.maprange := hpos cur (by simp)
    have hpc : entryEnd prev ≤ entryEnd cur := by
      unfold chainRel at hprevcur
      unfold entryEnd at hprevcur ⊢
      omega
    simp only [allocRest, if_neg hnotgt]
    by_cases hgap : entryEnd prev + size < cur.hostid
    · simp only [if_pos hgap]
      refine ⟨le_refl _, ?_⟩
      intro e he
      rcases List.mem_cons.mp he with he | he
      · subst he; right; exact le_refl _
      rcases List.mem_cons.mp he with he | he
      · subst he; left; omega
      · left
        have hce : chainRel cur e :=
          List.rel_of_pairwise_cons (List.Pairwise.of_cons hchain) he
        unfold chainRel at hce
        unfold entryEnd at hce
        omega
    · simp only [if_neg hgap]
      have hrec := ih cur (entryEnd cur) rfl (List.Pairwise.of_cons hchain)
        (fun e he => hpos e (List.mem_cons_of_mem prev he))
      cases halloc : allocRest size (entryEnd cur) cur rest with
      | inl off =>
        simp only [halloc] at hrec
        refine ⟨le_trans hpc hrec.1, ?_⟩
        intro e he
        rcases List.mem_cons.mp he with he | he
        · subst he
          right
          exact le_trans hpc hrec.1
        · exact hrec.2 e he
      | inr off =>
        simp only [halloc] at hrec
        intro e he
        rcases List.mem_cons.mp he with he | he
        · subst he
          exact le_trans hpc (hrec cur (by simp))
        · exact hrec e he

lemma allocFirst_spec (size offset : Int) (l : List IdmapEntry)
    (hchain : List.Pairwise chainRel l)
    (hpos : ∀ e ∈ l, 0 < e.maprange) :
    (match allocFirst size offset l with
     | Sum.inl off => ∀ e ∈ l, off + size ≤ e.hostid ∨ entryEnd e ≤ off
     | Sum.inr off => ∀ e ∈ l, entryEnd e ≤ off) := by
  cases l with
  | nil => simp [allocFirst]
  | cons e0 rest =>
    simp only [allocFirst]
    by_cases h0 : e0.hostid < offset + size
    · simp only [if_pos h0]
      have hrec := allocRest_spec size rest e0 (entryEnd e0) rfl hchain hpos
      cases halloc : allocRest size (entryEnd e0) e0 rest with
      | inl off => simp only [halloc] at hrec; exact hrec.2
      | inr off => simp only [halloc] at hrec; exact hrec
    · simp only [if_neg h0]
      intro e he
      left
      rcases List.mem_cons.mp he with he | he
      · subst he; omega
      · have hce : chainRel e0 e := List.rel_of_pairwise_cons hchain he
        have h0pos : 0 < e0.maprange := hpos e0 (by simp)
        unfold chainRel at hce
        unfold entryEnd at hce
        omega

lemma sorted_disjoint_chain :
    ∀ (l : List IdmapEntry),
      List.Pairwise (fun a b : IdmapEntry => a.hostid ≤ b.hostid) l →
      List.Pairwise entriesDisjoint l →
      (∀ e ∈ l, 0 < e.maprange) →
      List.Pairwise chainRel l := by
  intro l
  induction l with
  | nil => intro _ _ _; exact List.Pairwise.nil
  | cons a l2 ih =>
    intro hs hd hp
    refine List.Pairwise.cons ?_
      (ih hs.of_cons hd.of_cons (fun e he => hp e (List.mem_cons_of_mem a he)))
    intro b hb
    have hab : a.hostid ≤ b.hostid := List.rel_of_pairwise_cons hs hb
    have hdab : entriesDisjoint a b := List.rel_of_pairwise_cons hd hb
    have hbpos : 0 < b.maprange := hp b (List.mem_cons_of_mem a hb)
    rcases hdab with h | h
    · exact h
    · unfold entryEnd at h
      unfold chainRel entryEnd
      omega

lemma insertEntry_perm (e : IdmapEntry) :
    ∀ l : List IdmapEntry, (insertEntry e l).Perm (e :: l) := by
  intro l
  induction l with
  | nil => simp [insertEntry]
  | cons x xs ih =>
    by_cases h : e.hostid ≤ x.hostid
    · simp [insertEntry, h]
    · simp only [insertEntry, if_neg h]
      exact (ih.cons x).trans (List.Perm.swap e x xs)

lemma sortByHostid_perm :
    ∀ l : List IdmapEntry, (sortByHostid l).Perm l := by
  intro l
  induction l with
  | nil => simp [sortByHostid]
  | cons x xs ih =>
    exact (insertEntry_perm x (sortByHostid xs)).trans (ih.cons x)

lemma insertEntry_sorted (e : IdmapEntry) :
    ∀ l : List IdmapEntry,
      List.Pairwise (fun a b : IdmapEntry => a.hostid ≤ b.hostid) l →
      List.Pairwise (fun a b : IdmapEntry => a.hostid ≤ b.hostid) (insertEntry e l) := by
  intro l
  induction l with
  | nil => intro _; simp [insertEntry]
  | cons x xs ih =>
    intro hs
    by_cases h : e.hostid ≤ x.hostid
    · simp only [insertEntry, if_pos h]
      refine List.Pairwise.cons ?_ hs
      intro b hb
      rcases List.mem_cons.mp hb with hb | hb
      · subst hb; exact h
      · exact le_trans h (List.rel_of_pairwise_cons hs hb)
    · simp only [insertEntry, if_neg h]
      refine List.Pairwise.cons ?_ (ih hs.of_cons)
      intro b hb
      have hb2 : b ∈ e :: xs := (insertEntry_perm e xs).mem_iff.mp hb
      rcases List.mem_cons.mp hb2 with hb2 | hb2
      · subst hb2; omega
      · exact List.rel_of_pairwise_cons hs hb2

lemma sortByHostid_sorted :
    ∀ l : List IdmapEntry,
      List.Pairwise (fun a b : IdmapEntry => a.hostid ≤ b.hostid) (sortByHostid l) := by
  intro l
  induction l with
  | nil => simp [sortByHostid]
  | cons x xs ih => exact insertEntry_sorted x (sortByHostid xs) ih

lemma findIdmapOffset_disjoint (hostBase hostRange size : Int)
    (entries : List IdmapEntry) (off : Int)
    (hdisj : List.Pairwise entriesDisjoint entries)
    (hpos : ∀ e ∈ entries, 0 < e.maprange)
    (hfound : findIdmapOffset hostBase hostRange size entries = some off) :
    ∀ e ∈ entries, off + size ≤ e.hostid ∨ entryEnd e ≤ off := by
  unfold findIdmapOffset at hfound
  have hperm : (sortByHostid entries).Perm entries := sortByHostid_perm entries
  have hsorted := sortByHostid_sorted entries
  have hdisjs : List.Pairwise entriesDisjoint (sortByHostid entries) :=
    (hperm.pairwise_iff (fun h => h.symm)).mpr hdisj
  have hposs : ∀ e ∈ sortByHostid entries, 0 < e.maprange := by
    intro e he; exact hpos e (hperm.mem_iff.mp he)
  have hchain := sorted_disjoint_chain (sortByHostid entries) hsorted hdisjs hposs
  have hspec := allocFirst_spec size (hostBase + 65536) (sortByHostid entries) hchain hposs
  intro e he
  have hes : e ∈ sortByHostid entries := hperm.mem_iff.mpr he
  cases halloc : allocFirst size (hostBase + 65536) (sortByHostid entries) with
  | inl o =>
    rw [halloc] at hspec
    simp only [halloc] at hfound
    cases hfound
    exact hspec e hes
  | inr o =>
    rw [halloc] at hspec
    simp only [halloc] at hfound
    by_cases hfit : o + size < hostBase + hostRange
    · simp only [if_pos hfit, Option.some.injEq] at hfound
      subst hfound
      right
      exact hspec e hes
    · simp [if_neg hfit] at hfound

/-- C1 (counterexample): with host base 1000000 and two other isolated
containers recorded at bases 1065536 and 1196608 (size 65536 each), the
gap between them holds exactly the requested 65536 ids, so 1131072 is
the smallest offset at or above host base + 65536 that overlaps neither
range and fits in the host range; the scan nevertheless skips it (it
requires one id of slack) and returns 1262144. -/
theorem findIdmap_not_first_fit :
    findIdmapAuto 1000000 1000000000 65536 "self".data
      [⟨"a".data, false, true, "1065536".data, "65536".data⟩,
       ⟨"b".data, false, true, "1196608".data, "65536".data⟩] = Except.ok 1262144 ∧
    specOffsetOk 1000000 1000000000 65536 1131072
      [⟨1065536, 65536⟩, ⟨1196608, 65536⟩] = true ∧
    (1131072 : Int) < 1262144 := by
  decide

/-- C1 (amended): the isolated no-base path of `findIdmap` sorts the
recorded ranges of the other isolated non-privileged containers and
scans first-fit, but a candidate range must end strictly below the next
recorded base and, after the last recorded range, strictly below the
end of the host's backing range (a gap of exactly the requested size is
skipped); failing that it errors with "Not enough uid/gid available for
the container".  When the recorded ranges have positive sizes and are
pairwise disjoint, the returned offset's range overlaps none of them —
so instances allocated this way stay disjoint from the recorded ones. -/
theorem findIdmapAuto_disjoint (hostBase hostRange size : Int) (cName : List Char)
    (cts : List IdmapCtn) (entries : List IdmapEntry) (off : Int)
    (hcoll : collectMapentries cName cts = some entries)
    (hdisj : List.Pairwise entriesDisjoint entries)
    (hpos : ∀ e ∈ entries, 0 < e.maprange)
    (hok : findIdmapAuto hostBase hostRange size cName cts = Except.ok off) :
    ∀ e ∈ entries, off + size ≤ e.hostid ∨ entryEnd e ≤ off := by
  simp only [findIdmapAuto, hcoll] at hok
  cases hfo : findIdmapOffset hostBase hostRange size entries with
  | none => simp only [hfo] at hok; cases hok
  | some o =>
    simp only [hfo, Except.ok.injEq] at hok
    subst hok
    exact findIdmapOffset_disjoint hostBase hostRange size entries o hdisj hpos hfo

/-- C1 witness: a concrete successful allocation (host base 1000000,
one other isolated container at base 1065536) returns offset 1131072,
whose range is disjoint from the recorded one. -/
theorem findIdmapAuto_disjoint_witness :
    collectMapentries "self".data
        [⟨"a".data, false, true, "1065536".data, "65536".data⟩] =
      some [⟨1065536, 65536⟩] ∧
    (∀ e ∈ [(⟨1065536, 65536⟩ : IdmapEntry)],
      (1131072 : Int) + 65536 ≤ e.hostid ∨ entryEnd e ≤ 1131072) :=
  ⟨by decide,
   findIdmapAuto_disjoint 1000000 1000000000 65536 "self".data
     [⟨"a".data, false, true, "1065536".data, "65536".data⟩]
     [⟨1065536, 65536⟩] 1131072 (by decide) (by simp) (by decide) (by decide)⟩

/-! ### `Start`, fork phase (lxd/container_lxc.go)

After `forkstart` fails and the container is observed not running,
`Start` walks `lxc.log`, collects the ERROR lines into a local buffer
`lxcLog`, logs "Failed starting container", and returns the subprocess
error itself; the buffer is never referenced again. -/

/-- `unicode.IsSpace` for the characters that can appear in a log
line. -/
def isSpaceChar (c : Char) : Bool :=
  c = ' ' || c = '\t' || c = '\r' || c = '\n'

/-- `strings.Fields`: the whitespace-separated fields of a line, with
no empty fields, via an accumulator. -/
def goFieldsAux : List Char → List Char → List (List Char)
  | [], acc => if acc = [] then [] else [acc.reverse]
  | c :: cs, acc =>
    if isSpaceChar c then
      if acc = [] then goFieldsAux cs [] else acc.reverse :: goFieldsAux cs []
    else goFieldsAux cs (c :: acc)

/-- `strings.Fields`. -/
def goFields (s : List Char) : List (List Char) :=
  goFieldsAux s []

/-- `strings.Join(fields, " ")`. -/
def joinSpace : List (List Char) → List Char
  | [] => []
  | [x] => x
  | x :: xs => x ++ ' ' :: joinSpace xs

/-- The formatting of one kept log line: `"  %s\n"` of the fields
rejoined by single spaces. -/
def fmtLogLine (line : List Char) : List Char :=
  ' ' :: ' ' :: (joinSpace (goFields line) ++ ['\n'])

/-- Does `Start` keep this log line: at least four fields and the third
field equal to `ERROR`. -/
def keepLogLine (line : List Char) : Bool :=
  decide (4 ≤ (goFields line).length) &&
    decide ((goFields line)[2]? = some "ERROR".data)

/-- The body of the log loop: skip short lines and lines whose third
field is not ERROR; prepend one line break before the first kept line;
append the kept line re-joined and indented. -/
def lxcLogAppend (acc line : List Char) : List Char :=
  if (goFields line).length < 4 then acc
  else if ¬ ((goFields line)[2]? = some "ERROR".data) then acc
  else (if acc.length = 0 then acc ++ ['\n'] else acc) ++ fmtLogLine line

/-- The `lxcLog` buffer built by `Start` from the content of
`lxc.log`. -/
def lxcLogOf (logContent : List Char) : List Char :=
  (splitOnChar '\n' logContent).foldl lxcLogAppend []

/-- Spec-side description of the buffer: filter the kept lines, format
each, concatenate, and prefix a single newline when non-empty. -/
def specLxcLog (logContent : List Char) : List Char :=
  let errLines := (splitOnChar '\n' logContent).filter keepLogLine
  if errLines = [] then []
  else '\n' :: (errLines.map fmtLogLine).flatten

/-- What the fork phase of `Start` returns once `forkstart` has run:
on a subprocess error with the container not running it returns that
error (the `lxcLog` buffer modelled by `lxcLogOf` is computed there and
dropped); otherwise this part of `Start` produces no error. -/
def startForkSurface (forkErr : Option (List Char)) (running : Bool)
    (logContent : List Char) : Option (List Char) :=
  match forkErr with
  | none => none
  | some e => if running then none else some e

lemma foldl_lxcLogAppend_ne (lines : List (List Char)) :
    ∀ acc : List Char, acc ≠ [] →
      lines.foldl lxcLogAppend acc =
        acc ++ ((lines.filter keepLogLine).map fmtLogLine).flatten := by
  induction lines with
  | nil => intro acc _; simp
  | cons line rest ih =>
    intro acc hacc
    simp only [List.foldl_cons, List.filter_cons]
    by_cases hkeep : keepLogLine line = true
    · have hkeep2 := hkeep
      unfold keepLogLine at hkeep2
      simp only [Bool.and_eq_true, decide_eq_true_eq] at hkeep2
      have hlen : ¬ ((goFields line).length < 4) := by omega
      have hacc0 : ¬ (acc.length = 0) := by
        simpa [List.length_eq_zero] using hacc
      have happ : lxcLogAppend acc line = acc ++ fmtLogLine line := by
        unfold lxcLogAppend
        rw [if_neg hlen, if_neg (not_not_intro hkeep2.2), if_neg hacc0]
      rw [happ, ih (acc ++ fmtLogLine line) (by simp [hacc])]
      simp [hkeep]
    · have hkeep2 := hkeep
      unfold keepLogLine at hkeep2
      simp only [Bool.and_eq_true, decide_eq_true_eq, not_and] at hkeep2
      have happ : lxcLogAppend acc line = acc := by
        unfold lxcLogAppend
        by_cases hlen : (goFields line).length < 4
        · rw [if_pos hlen]
        · have herr : ¬ ((goFields line)[2]? = some "ERROR".data) :=
            fun hc => (hkeep2 (by omega)) hc
          rw [if_neg hlen, if_pos herr]
      rw [happ, ih acc hacc]
      simp [hkeep]

lemma foldl_lxcLogAppend_nil (lines : List (List Char)) :
    lines.foldl lxcLogAppend [] =
      (if lines.filter keepLogLine = [] then []
       else '\n' :: ((lines.filter keepLogLine).map fmtLogLine).flatten) := by
  induction lines with
  | nil => simp
  | cons line rest ih =>
    simp only [List.foldl_cons, List.filter_cons]
    by_cases hkeep : keepLogLine line = true
    · have hkeep2 := hkeep
      unfold keepLogLine at hkeep2
      simp only [Bool.and_eq_true, decide_eq_true_eq] at hkeep2
      have hlen : ¬ ((goFields line).length < 4) := by omega
      have happ : lxcLogAppend [] line = '\n' :: fmtLogLine line := by
        unfold lxcLogAppend
        rw [if_neg hlen, if_neg (not_not_intro hkeep2.2)]
        simp
      rw [happ,
        foldl_lxcLogAppend_ne rest ('\n' :: fmtLogLine line) (by simp)]
      simp [hkeep]
    · have hkeep2 := hkeep
      unfold keepLogLine at hkeep2
      simp only [Bool.and_eq_true, decide_eq_true_eq, not_and] at hkeep2
      have happ : lxcLogAppend [] line = [] := by
        unfold lxcLogAppend
        by_cases hlen : (goFields line).length < 4
        · rw [if_pos hlen]
        · have herr : ¬ ((goFields line)[2]? = some "ERROR".data) :=
            fun hc => (hkeep2 (by omega)) hc
          rw [if_neg hlen, if_pos herr]
      rw [happ, ih]
      simp [hkeep]

/-- C4 (counterexample): `forkstart` fails with `exit status 1` while
the container is not running and `lxc.log` holds an ERROR line; the
extracted buffer is non-empty, yet the surfaced error is exactly the
subprocess error and does not contain the extracted lines. -/
theorem start_error_lines_counterexample :
    startForkSurface (some "exit status 1".data) false
        "t0 c1 ERROR failed to mount rootfs".data =
      some "exit status 1".data ∧
    lxcLogOf "t0 c1 ERROR failed to mount rootfs".data ≠ [] ∧
    ¬ (lxcLogOf "t0 c1 ERROR failed to mount rootfs".data <:+:
        "exit status 1".data) := by
  refine ⟨rfl, ?_, ?_⟩ <;> decide

/-- C4 (amended): when `forkstart` returns non-zero and the container
is observed not running, `Start` fails and the error surfaced to the
caller is the subprocess error itself, whatever the runtime log holds;
the ERROR lines of `lxc.log` (lines with at least four fields whose
third field is `ERROR`) are collected into a local newline-prefixed,
indented, whitespace-normalized buffer, but that buffer is not part of
the surfaced error. -/
theorem startForkSurface_subprocess_error (e : List Char) (running : Bool)
    (logContent : List Char) :
    startForkSurface (some e) running logContent =
      (if running then none else some e) ∧
    lxcLogOf logContent = specLxcLog logContent := by
  refine ⟨rfl, ?_⟩
  unfold lxcLogOf specLxcLog
  exact foldl_lxcLogAppend_nil (splitOnChar '\n' logContent)

/-! ### `Delete` (lxd/container_lxc.go) -/

/-- Modelled from the spec: `shared.IsTrue` (the `shared` package is
not among the selected sources) treats the values `true`, `1`, `yes`
and `on` as true, case-insensitively. -/
def toLowerChar (c : Char) : Char :=
  if 'A' ≤ c ∧ c ≤ 'Z' then Char.ofNat (c.toNat + 32) else c

/-- Modelled from the spec: `shared.IsTrue` on a config value. -/
def sharedIsTrue (v : List Char) : Bool :=
  let lv := v.map toLowerChar
  lv = "true".data || lv = "1".data || lv = "yes".data || lv = "on".data

/-- The fields of a container that `Delete` consults. -/
structure DelCtn where
  isSnapshot : Bool
  protectionDelete : List Char
  storagePresent : Bool
  isImport : Bool
  pathExists : Bool
  deviceNames : List (List Char)

/-- The externally visible destructive actions `Delete` can take, in
source order. -/
inductive DelEffect
  | snapshotDelete
  | snapshotsDeleteAll
  | backupsDelete
  | cleanup
  | storageDelete
  | maasDelete
  | deviceRemove (k : List Char)
  | dbRemove
  | volumeDelete
deriving DecidableEq

/-- `Delete` with all external collaborators (storage, MAAS, database)
succeeding: the protection guard `security.protection.delete` is
checked first but only for non-snapshots; afterwards the snapshot or
container teardown effects happen, then the database row and the pool
volume record are removed.  The returned list is the ordered effect
trace. -/
def Delete (c : DelCtn) : Except (List Char) Unit × List DelEffect :=
  if sharedIsTrue c.protectionDelete && ! c.isSnapshot then
    (Except.error "Container is protected".data, [])
  else
    let effs1 :=
      if c.isSnapshot then
        if c.storagePresent && ! c.isImport then [DelEffect.snapshotDelete] else []
      else
        [DelEffect.snapshotsDeleteAll, DelEffect.backupsDelete, DelEffect.cleanup] ++
          (if c.storagePresent && ! c.isImport && c.pathExists then
            [DelEffect.storageDelete] else []) ++
          [DelEffect.maasDelete] ++ c.deviceNames.map DelEffect.deviceRemove
    (Except.ok (),
      effs1 ++ [DelEffect.dbRemove] ++
        (if c.storagePresent then [DelEffect.volumeDelete] else []))

/-- C5 (counterexample): the protection guard is skipped for snapshots
(`&& !c.IsSnapshot()`), so deleting a snapshot whose expanded config
sets `security.protection.delete=true` succeeds and removes state (at
least the database record), contradicting the claim for every
container. -/
theorem delete_protected_snapshot_counterexample :
    (Delete ⟨true, "true".data, false, false, false, []⟩).1 = Except.ok () ∧
    DelEffect.dbRemove ∈ (Delete ⟨true, "true".data, false, false, false, []⟩).2 := by
  decide

/-- C5 (amended): for every non-snapshot container whose expanded
config sets `security.protection.delete` to a true value, `Delete`
fails with "Container is protected" and performs no destructive
effect; snapshots are exempt from the protection check. -/
theorem delete_protected_no_effects (c : DelCtn)
    (hs : c.isSnapshot = false)
    (hp : sharedIsTrue c.protectionDelete = true) :
    Delete c = (Except.error "Container is protected".data, []) := by
  unfold Delete
  rw [hp, hs]
  rfl

/-- C5 witness: a concrete protected non-snapshot container. -/
theorem delete_protected_no_effects_witness :
    (⟨false, "true".data, true, false, true, ["root".data]⟩ : DelCtn).isSnapshot = false ∧
    Delete ⟨false, "true".data, true, false, true, ["root".data]⟩ =
      (Except.error "Container is protected".data, []) :=
  ⟨rfl, delete_protected_no_effects
    ⟨false, "true".data, true, false, true, ["root".data]⟩ rfl (by decide)⟩

/-! ### `writeBackupFile` (lxd/container_lxc.go) -/

/-- What `writeBackupFile` consults: the flags it branches on and the
results of its collaborators (`Render`, `Snapshots` plus the per-
snapshot renders, the pool record lookup, the volume record lookup),
each abstracted as an `Except`. -/
structure BackupEnv (α β γ δ : Type) where
  isSnapshot : Bool
  pathExists : Bool
  rootfsExists : Bool
  path : List Char
  renderCtn : Except (List Char) α
  snapshots : Except (List Char) (List β)
  pool : Except (List Char) γ
  volume : Except (List Char) δ

/-- The write performed by `writeBackupFile`: target file, chmod mode,
and the `backupFile` record serialized into it (`yaml.Marshal` of a
well-formed record is not modelled as failing). -/
structure BackupWrite (α β γ δ : Type) where
  file : List Char
  mode : Nat
  container : α
  snaps : List β
  pool : γ
  volume : δ
deriving DecidableEq

/-- `writeBackupFile`: skip (no error) for snapshots; fail with
`os.ErrNotExist` when the container path does not exist; render the
instance, the snapshots, the pool and the volume; skip (no error) when
the rootfs is not mounted; otherwise write `backup.yaml` under the
container path with mode 0400. -/
def writeBackupFile {α β γ δ : Type} (env : BackupEnv α β γ δ) :
    Except (List Char) (Option (BackupWrite α β γ δ)) :=
  if env.isSnapshot then Except.ok none
  else if ¬ env.pathExists then Except.error "os.ErrNotExist".data
  else
    match env.renderCtn with
    | Except.error e =>
      Except.error ("Failed to render container metadata: ".data ++ e)
    | Except.ok ci =>
      match env.snapshots with
      | Except.error e => Except.error e
      | Except.ok sis =>
        match env.pool with
        | Except.error e => Except.error e
        | Except.ok pool =>
          match env.volume with
          | Except.error e => Except.error e
          | Except.ok volume =>
            if ¬ env.rootfsExists then Except.ok none
            else Except.ok (some ⟨env.path ++ "/backup.yaml".data, 0o400,
              ci, sis, pool, volume⟩)

/-- C8 (counterexample): for a non-snapshot container whose path does
not exist (storage not mounted), `writeBackupFile` is not silently
skipped: it returns the `os.ErrNotExist` error. -/
theorem writeBackupFile_missing_path_counterexample :
    writeBackupFile (⟨false, false, false, "/c1".data,
        Except.ok 0, Except.ok [], Except.ok 0, Except.ok 0⟩ :
          BackupEnv Nat Nat Nat Nat) =
      Except.error "os.ErrNotExist".data := by
  decide

/-- C8 (amended): `writeBackupFile` is skipped without error for
snapshots and for containers whose rootfs is not mounted; when the
container's path does not exist it instead fails with `os.ErrNotExist`;
otherwise it writes `backup.yaml` under the container's path with mode
0400 containing the rendered instance, every snapshot, the pool record
and the volume record. -/
theorem writeBackupFile_characterization {α β γ δ : Type}
    (env : BackupEnv α β γ δ) (ci : α) (sis : List β) (pool : γ) (volume : δ)
    (hci : env.renderCtn = Except.ok ci)
    (hsis : env.snapshots = Except.ok sis)
    (hpool : env.pool = Except.ok pool)
    (hvol : env.volume = Except.ok volume) :
    writeBackupFile env =
      if env.isSnapshot then Except.ok none
      else if ¬ env.pathExists then Except.error "os.ErrNotExist".data
      else if ¬ env.rootfsExists then Except.ok none
      else Except.ok (some ⟨env.path ++ "/backup.yaml".data, 0o400,
        ci, sis, pool, volume⟩) := by
  unfold writeBackupFile
  rw [hci, hsis, hpool, hvol]

/-- C8 witness: a concrete mounted non-snapshot container writes
`backup.yaml` with mode 0400 and the four records. -/
theorem writeBackupFile_characterization_witness :
    (⟨false, true, true, "/c1".data, Except.ok 7, Except.ok [5],
        Except.ok 3, Except.ok 4⟩ : BackupEnv Nat Nat Nat Nat).renderCtn =
      Except.ok 7 ∧
    writeBackupFile (⟨false, true, true, "/c1".data, Except.ok 7,
        Except.ok [5], Except.ok 3, Except.ok 4⟩ : BackupEnv Nat Nat Nat Nat) =
      if (false : Bool) then Except.ok none
      else if ¬ (true : Bool) then Except.error "os.ErrNotExist".data
      else if ¬ (true : Bool) then Except.ok none
      else Except.ok (some ⟨"/c1".data ++ "/backup.yaml".data, 0o400, 7, [5], 3, 4⟩) :=
  ⟨rfl, writeBackupFile_characterization
    (⟨false, true, true, "/c1".data, Except.ok 7, Except.ok [5],
      Except.ok 3, Except.ok 4⟩ : BackupEnv Nat Nat Nat Nat)
    7 [5] 3 4 rfl rfl rfl rfl⟩

/-! ### `Update` volatile/image guard and `VolatileSet`
(lxd/container_lxc.go)

Config maps are association lists with distinct keys; a Go map read of
a missing key yields the zero value `""`. -/

/-- A config map. -/
abbrev Cfg := List (List Char × List Char)

/-- Go map read: the stored value, or `""` when absent. -/
def lookupD (m : Cfg) (k : List Char) : List Char :=
  match m.find? (fun e => e.1 = k) with
  | some e => e.2
  | none => []

/-- Partial-map view of a config, used to state the original claim
(`none` = key absent). -/
def lookupOptCfg (m : Cfg) (k : List Char) : Option (List Char) :=
  (m.find? (fun e => e.1 = k)).map (·.2)

/-- One direction of the volatile/image guard of `Update`: iterate the
first map and compare each `volatile.*` or `image.*` key's value with
the read (default `""`) from the second map. -/
def checkLoop : Cfg → Cfg → Option (List Char)
  | [], _ => none
  | (k, v) :: rest, other =>
    if hasPrefixL "volatile.".data k = true ∧ ¬ (lookupD other k = v) then
      some "Volatile keys are read-only".data
    else if hasPrefixL "image.".data k = true ∧ ¬ (lookupD other k = v) then
      some "Image keys are read-only".data
    else checkLoop rest other

/-- The volatile/image guard of a user-requested `Update`: both loops,
the submitted config against the local config and back. -/
def volatileImageCheck (argsCfg localCfg : Cfg) : Option (List Char) :=
  match checkLoop argsCfg localCfg with
  | some e => some e
  | none => checkLoop localCfg argsCfg

/-- The same guard including the `userRequested` gate. -/
def updateKeysGuard (userRequested : Bool) (argsCfg localCfg : Cfg) :
    Option (List Char) :=
  if userRequested then volatileImageCheck argsCfg localCfg else none

/-- Is `k` one of the guarded key families? -/
def guardedKey (k : List Char) : Prop :=
  hasPrefixL "volatile.".data k = true ∨ hasPrefixL "image.".data k = true

instance (k : List Char) : Decidable (guardedKey k) := by
  unfold guardedKey
  infer_instance

/-- The sanity check of `VolatileSet`: every changed key must carry the
`volatile.` prefix. -/
def volatileSetCheck (changes : Cfg) : Option (List Char) :=
  if changes.all (fun e => hasPrefixL "volatile.".data e.1) then none
  else some "Only volatile keys can be modified with VolatileSet".data

/-- Insert or replace one key in a config map. -/
def upsertCfg (m : Cfg) (k v : List Char) : Cfg :=
  if (m.find? (fun e => e.1 = k)).isSome then
    m.map (fun e => if e.1 = k then (k, v) else e)
  else m ++ [(k, v)]

/-- Apply one change of `VolatileSet` locally: an empty value deletes
the key, anything else stores it. -/
def applyVolatileChange (m : Cfg) (kv : List Char × List Char) : Cfg :=
  if kv.2 = [] then m.filter (fun e => ¬ (e.1 = kv.1)) else upsertCfg m kv.1 kv.2

/-- `VolatileSet` on the local config (the expanded config receives the
identical updates): reject any non-volatile key, else apply every
change. -/
def VolatileSet (localCfg : Cfg) (changes : Cfg) : Except (List Char) Cfg :=
  match volatileSetCheck changes with
  | some e => Except.error e
  | none => Except.ok (changes.foldl applyVolatileChange localCfg)

lemma checkLoop_none_iff (other : Cfg) :
    ∀ m : Cfg, checkLoop m other = none ↔
      ∀ e ∈ m, guardedKey e.1 → lookupD other e.1 = e.2 := by
  intro m
  induction m with
  | nil => simp [checkLoop]
  | cons kv rest ih =>
    obtain ⟨k, v⟩ := kv
    by_cases h1 : hasPrefixL "volatile.".data k = true ∧ ¬ (lookupD other k = v)
    · simp only [checkLoop, if_pos h1]
      constructor
      · intro hc; cases hc
      · intro hall
        exact absurd (hall (k, v) (by simp) (Or.inl h1.1)) h1.2
    · by_cases h2 : hasPrefixL "image.".data k = true ∧ ¬ (lookupD other k = v)
      · simp only [checkLoop, if_neg h1, if_pos h2]
        constructor
        · intro hc; cases hc
        · intro hall
          exact absurd (hall (k, v) (by simp) (Or.inr h2.1)) h2.2
      · simp only [checkLoop, if_neg h1, if_neg h2]
        rw [ih]
        constructor
        · intro hall e he hg
          rcases List.mem_cons.mp he with he | he
          · cases he
            by_cases heq : lookupD other k = v
            · exact heq
            · rcases hg with hg | hg
              · exact absurd ⟨hg, heq⟩ h1
              · exact absurd ⟨hg, heq⟩ h2
          · exact hall e he hg
        · intro hall e he hg
          exact hall e (List.mem_cons_of_mem _ he) hg

lemma lookupD_of_mem :
    ∀ (m : Cfg), (m.map Prod.fst).Nodup →
      ∀ k v : List Char, (k, v) ∈ m → lookupD m k = v := by
  intro m
  induction m with
  | nil => intro _ k v h; cases h
  | cons e rest ih =>
    intro hn k v h
    obtain ⟨k0, v0⟩ := e
    rcases List.mem_cons.mp h with h | h
    · cases h
      unfold lookupD
      simp [List.find?_cons_of_pos]
    · by_cases hk : k0 = k
      · subst hk
        exfalso
        have : k0 ∈ rest.map Prod.fst := by
          exact List.mem_map.mpr ⟨(k0, v), h, rfl⟩
        simp only [List.map_cons, List.nodup_cons] at hn
        exact hn.1 this
      · unfold lookupD
        rw [List.find?_cons_of_neg _ (by simp [hk])]
        have := ih (by simpa using (List.nodup_cons.mp (by simpa using hn)).2) k v h
        unfold lookupD at this
        exact this

lemma lookupD_not_mem :
    ∀ (m : Cfg) (k : List Char), ¬ (k ∈ m.map Prod.fst) → lookupD m k = [] := by
  intro m
  induction m with
  | nil => intro k _; rfl
  | cons e rest ih =>
    intro k hk
    obtain ⟨k0, v0⟩ := e
    simp only [List.map_cons, List.mem_cons] at hk
    push_neg at hk
    unfold lookupD
    rw [List.find?_cons_of_neg _ (by simp; exact fun hc => hk.1 hc.symm)]
    have := ih k hk.2
    unfold lookupD at this
    exact this

lemma volatileImageCheck_none_iff (argsCfg localCfg : Cfg) :
    volatileImageCheck argsCfg localCfg = none ↔
      checkLoop argsCfg localCfg = none ∧ checkLoop localCfg argsCfg = none := by
  unfold volatileImageCheck
  cases h : checkLoop argsCfg localCfg with
  | some e => simp [h]
  | none => simp [h]

/-- C7 (counterexample): submitting `volatile.foo` with the empty
value while the key is absent from the local config is a difference in
the partial-map sense (key added), yet the guard accepts it: a Go map
read of a missing key yields `""`, which compares equal to the
submitted empty value. -/
theorem update_volatile_guard_counterexample :
    updateKeysGuard true [("volatile.foo".data, [])] [] = none ∧
    lookupOptCfg [("volatile.foo".data, [])] "volatile.foo".data = some [] ∧
    lookupOptCfg ([] : Cfg) "volatile.foo".data = none := by
  refine ⟨rfl, rfl, rfl⟩

/-- C7 (amended): a user-requested `Update` fails before applying any
change exactly when the submitted config and the current local config
read differently (Go map reads, where a missing key reads as the empty
string — so adding or removing a key with an empty value is not a
difference) at some key prefixed `volatile.` or `image.`; a
non-user-requested update skips the guard; `VolatileSet` rejects a
change set exactly when it contains a key not prefixed `volatile.`, and
otherwise applies every change (an empty value deletes the key). -/
theorem update_guard_and_volatileSet (argsCfg localCfg changes : Cfg)
    (hna : (argsCfg.map Prod.fst).Nodup)
    (hnl : (localCfg.map Prod.fst).Nodup) :
    (updateKeysGuard true argsCfg localCfg = none ↔
      ∀ k : List Char, guardedKey k → lookupD argsCfg k = lookupD localCfg k) ∧
    updateKeysGuard false argsCfg localCfg = none ∧
    (VolatileSet localCfg changes =
        Except.error "Only volatile keys can be modified with VolatileSet".data ↔
      ¬ ∀ e ∈ changes, hasPrefixL "volatile.".data e.1 = true) ∧
    ((∀ e ∈ changes, hasPrefixL "volatile.".data e.1 = true) →
      VolatileSet localCfg changes =
        Except.ok (changes.foldl applyVolatileChange localCfg)) := by
  refine ⟨?_, rfl, ?_, ?_⟩
  · unfold updateKeysGuard
    rw [if_pos rfl, volatileImageCheck_none_iff,
      checkLoop_none_iff localCfg argsCfg, checkLoop_none_iff argsCfg localCfg]
    constructor
    · rintro ⟨hargs, hlocal⟩ k hk
      by_cases hka : k ∈ argsCfg.map Prod.fst
      · obtain ⟨⟨k2, v⟩, hmem, hk2⟩ := List.mem_map.mp hka
        cases hk2
        rw [lookupD_of_mem argsCfg hna _ v hmem]
        exact (hargs (k2, v) hmem hk).symm
      · by_cases hkl : k ∈ localCfg.map Prod.fst
        · obtain ⟨⟨k2, v⟩, hmem, hk2⟩ := List.mem_map.mp hkl
          cases hk2
          rw [lookupD_of_mem localCfg hnl _ v hmem]
          exact hlocal (k2, v) hmem hk
        · rw [lookupD_not_mem argsCfg k hka, lookupD_not_mem localCfg k hkl]
    · intro hall
      constructor
      · intro e he hg
        rw [← lookupD_of_mem argsCfg hna e.1 e.2 (by simpa using he)]
        exact (hall e.1 hg).symm
      · intro e he hg
        rw [← lookupD_of_mem localCfg hnl e.1 e.2 (by simpa using he)]
        exact hall e.1 hg
  · unfold VolatileSet volatileSetCheck
    by_cases hall : ∀ e ∈ changes, hasPrefixL "volatile.".data e.1 = true
    · rw [if_pos (by simpa [List.all_eq_true] using hall)]
      constructor
      · intro hc; cases hc
      · intro hc; exact absurd hall hc
    · rw [if_neg (by simpa [List.all_eq_true] using hall)]
      constructor
      · intro _; exact hall
      · intro _; rfl
  · intro hall
    unfold VolatileSet volatileSetCheck
    rw [if_pos (by simpa [List.all_eq_true] using hall)]

/-- C7 witness: a concrete accepted update (volatile key unchanged) and
a concrete `VolatileSet` that applies its change. -/
theorem update_guard_and_volatileSet_witness :
    ([("volatile.base".data, "10".data), ("user.a".data, "1".data)].map
        (Prod.fst (α := List Char) (β := List Char))).Nodup ∧
    ((updateKeysGuard true
        [("volatile.base".data, "10".data), ("user.a".data, "1".data)]
        [("volatile.base".data, "10".data)] = none ↔
      ∀ k : List Char, guardedKey k →
        lookupD [("volatile.base".data, "10".data), ("user.a".data, "1".data)] k =
          lookupD [("volatile.base".data, "10".data)] k) ∧
    updateKeysGuard false
        [("volatile.base".data, "10".data), ("user.a".data, "1".data)]
        [("volatile.base".data, "10".data)] = none ∧
    (VolatileSet [("volatile.base".data, "10".data)]
          [("volatile.next".data, "11".data)] =
        Except.error "Only volatile keys can be modified with VolatileSet".data ↔
      ¬ ∀ e ∈ [("volatile.next".data, "11".data)],
        hasPrefixL "volatile.".data e.1 = true) ∧
    ((∀ e ∈ [("volatile.next".data, "11".data)],
        hasPrefixL "volatile.".data e.1 = true) →
      VolatileSet [("volatile.base".data, "10".data)]
          [("volatile.next".data, "11".data)] =
        Except.ok ([("volatile.next".data, "11".data)].foldl applyVolatileChange
          [("volatile.base".data, "10".data)]))) :=
  ⟨by decide,
   update_guard_and_volatileSet
     [("volatile.base".data, "10".data), ("user.a".data, "1".data)]
     [("volatile.base".data, "10".data)]
     [("volatile.next".data, "11".data)] (by decide) (by decide)⟩

/-! ### `Update`: live `limits.memory` change (lxd/container_lxc.go)

The cgroup write sequence of the `limits.memory` branch of `Update`,
with the memory value already resolved to bytes (the `%`/byte-size
parsing delegates to `units.ParseByteSizeString` and
`shared.DeviceTotalMemory`, outside the selected sources).  Writes are
modelled as an ordered trace of `(key, value)` attempts; a failure
oracle `failKeys` decides which `CGroupSet` calls fail. -/

/-- Decimal digits of a natural number (fuel-structured so that it
evaluates in the kernel). -/
def natToDecCore : Nat → Nat → List Char → List Char
  | 0, _, acc => acc
  | fuel + 1, n, acc =>
    let d := Char.ofNat (n % 10 + '0'.toNat)
    if n < 10 then d :: acc
    else natToDecCore fuel (n / 10) (d :: acc)

/-- Decimal representation of a natural number. -/
def natToDec (n : Nat) : List Char :=
  natToDecCore (n + 1) n []

/-- `fmt.Sprintf("%d", i)`. -/
def intToDec (i : Int) : List Char :=
  if i < 0 then '-' :: natToDec i.natAbs else natToDec i.toNat

/-- `fmt.Sprintf("%.0f", float64(v)*0.9)`: 0.9·v rounded to the
nearest integer, ties to even.  (Go computes in 64-bit floating point;
the exact rational rounding used here agrees on the exactly
representable range.) -/
def sprintf90 (v : Int) : Int :=
  let n := 9 * v
  let q := Int.ediv n 10
  let r := Int.emod n 10
  if r < 5 then q
  else if 5 < r then q + 1
  else if Int.emod q 2 = 0 then q else q + 1

/-- The string written as the soft limit in the non-soft-enforce
branch. -/
def memorySoftStr (v : Int) : List Char :=
  intToDec (sprintf90 v)

/-- Cgroup keys of the memory branch. -/
def memswKey : List Char := "memory.memsw.limit_in_bytes".data

/-- `memory.limit_in_bytes`. -/
def memLimitKey : List Char := "memory.limit_in_bytes".data

/-- `memory.soft_limit_in_bytes`. -/
def memSoftKey : List Char := "memory.soft_limit_in_bytes".data

/-- What the memory branch of `Update` consults. -/
structure MemEnv where
  memController : Bool
  swapAccounting : Bool
  enforce : List Char
  memorySwap : List Char
  cgroup : Cfg
  readFails : List (List Char)
  failKeys : List (List Char)

/-- `CGroupGet` with the source's fallback: a failed read leaves the
old value empty. -/
def cgGetD (env : MemEnv) (k : List Char) : List Char :=
  if k ∈ env.readFails then [] else lookupD env.cgroup k

/-- The `revertMemory` closure: restore soft, hard, then memsw limits,
each only when its old value was read successfully (non-empty). -/
def revertSteps (env : MemEnv) : List (List Char × List Char) :=
  (if cgGetD env memSoftKey ≠ [] then [(memSoftKey, cgGetD env memSoftKey)] else []) ++
    (if cgGetD env memLimitKey ≠ [] then [(memLimitKey, cgGetD env memLimitKey)] else []) ++
    (if env.swapAccounting = true ∧ cgGetD env memswKey ≠ [] then
      [(memswKey, cgGetD env memswKey)] else [])

/-- The reset phase: clear memsw (when swap accounting is available),
then the hard limit, then the soft limit, all to `-1`. -/
def clearSteps (env : MemEnv) : List (List Char × List Char) :=
  (if env.swapAccounting then [(memswKey, "-1".data)] else []) ++
    [(memLimitKey, "-1".data), (memSoftKey, "-1".data)]

/-- The set phase: with `limits.memory.enforce = soft` only the soft
limit receives the new value; otherwise the hard limit (and memsw when
swap accounting is on and `limits.memory.swap` is unset or true) gets
the new value and the soft limit gets 0.9 times it. -/
def newSteps (env : MemEnv) (memory : Int) : List (List Char × List Char) :=
  if env.enforce = "soft".data then [(memSoftKey, intToDec memory)]
  else
    (if env.swapAccounting = true ∧
        (env.memorySwap = [] ∨ sharedIsTrue env.memorySwap = true) then
      [(memLimitKey, intToDec memory), (memswKey, intToDec memory)]
    else [(memLimitKey, intToDec memory)]) ++
      [(memSoftKey, memorySoftStr memory)]

/-- The error carried by a failed `CGroupSet`. -/
def cgSetFailMsg (k v : List Char) : List Char :=
  "Failed to set cgroup ".data ++ k ++ "=".data ++ v

/-- Run the write sequence: on the first failing write, return its
error and append the revert writes; otherwise perform every write. -/
def runSteps (env : MemEnv) (revert : List (List Char × List Char)) :
    List (List Char × List Char) → Option (List Char) × List (List Char × List Char)
  | [] => (none, [])
  | (k, v) :: rest =>
    if k ∈ env.failKeys then (some (cgSetFailMsg k v), (k, v) :: revert)
    else
      let r := runSteps env revert rest
      (r.1, (k, v) :: r.2)

/-- The memory branch of the live `Update`: skipped without writes when
the memory cgroup controller is absent; otherwise the clear phase runs
before the set phase, with the revert closure invoked on any
failure. -/
def memoryApply (env : MemEnv) (memory : Int) :
    Option (List Char) × List (List Char × List Char) :=
  if ¬ env.memController then (none, [])
  else runSteps env (revertSteps env) (clearSteps env ++ newSteps env memory)

lemma runSteps_ok (env : MemEnv) (revert : List (List Char × List Char)) :
    ∀ steps, (∀ k ∈ steps.map Prod.fst, ¬ k ∈ env.failKeys) →
      runSteps env revert steps = (none, steps) := by
  intro steps
  induction steps with
  | nil => intro _; rfl
  | cons kv rest ih =>
    intro hok
    obtain ⟨k, v⟩ := kv
    have hk : ¬ k ∈ env.failKeys := hok k (by simp)
    simp only [runSteps, if_neg hk]
    rw [ih (fun k2 hk2 => hok k2 (by simp [hk2]))]

lemma runSteps_err (env : MemEnv) (revert : List (List Char × List Char)) :
    ∀ steps e, (runSteps env revert steps).1 = some e →
      ∃ p, (runSteps env revert steps).2 = p ++ revert := by
  intro steps
  induction steps with
  | nil => intro e he; cases he
  | cons kv rest ih =>
    intro e he
    obtain ⟨k, v⟩ := kv
    by_cases hk : k ∈ env.failKeys
    · refine ⟨[(k, v)], ?_⟩
      simp [runSteps, hk]
    · simp only [runSteps, if_neg hk] at he ⊢
      obtain ⟨p, hp⟩ := ih e he
      exact ⟨(k, v) :: p, by simp [hp]⟩

/-- C6 (counterexample): on a running container with the memory
controller and swap accounting available but `limits.memory.enforce =
soft`, a live `limits.memory` change to 1000000000 bytes succeeds while
writing the new value only to the soft limit: the hard limit is cleared
to `-1` and never receives the new value, and no 0.9-scaled soft limit
is written, contradicting the claim's unconditional set phase. -/
theorem memory_enforce_soft_counterexample :
    (memoryApply ⟨true, true, "soft".data, [], [], [], []⟩ 1000000000).1 = none ∧
    ¬ ((memLimitKey, intToDec 1000000000) ∈
        (memoryApply ⟨true, true, "soft".data, [], [], [], []⟩ 1000000000).2) ∧
    (memSoftKey, intToDec 1000000000) ∈
      (memoryApply ⟨true, true, "soft".data, [], [], [], []⟩ 1000000000).2 := by
  decide

/-- C6 (amended): when a live `Update` changes `limits.memory` on a
running container with the memory cgroup controller available, memsw
(when swap accounting is available), the hard limit and the soft limit
are cleared to `-1`, in that order, before any new value is written;
then, unless `limits.memory.enforce` is `soft` (in which case only the
soft limit receives the new value), the hard limit (and memsw when
applicable) receives the new value and the soft limit 0.9 times it
(float-rounded); if any write in the sequence fails, the update fails
and the previously read old values (those that could be read) are
rewritten by the revert closure. -/
theorem memoryApply_spec (env : MemEnv) (memory : Int)
    (hc : env.memController = true) :
    ((∀ k ∈ (clearSteps env ++ newSteps env memory).map Prod.fst,
        ¬ k ∈ env.failKeys) →
      memoryApply env memory = (none, clearSteps env ++ newSteps env memory)) ∧
    (∀ e, (memoryApply env memory).1 = some e →
      ∃ p, (memoryApply env memory).2 = p ++ revertSteps env) := by
  constructor
  · intro hok
    unfold memoryApply
    rw [hc]
    simp only [not_true, if_false]
    exact runSteps_ok env (revertSteps env) _ hok
  · intro e he
    unfold memoryApply at he ⊢
    rw [hc] at he ⊢
    simp only [not_true, if_false] at he ⊢
    exact runSteps_err env (revertSteps env) _ e he

/-- A concrete all-writes-succeed environment for the C6 witness. -/
def memEnvOk : MemEnv :=
  ⟨true, true, [], [], [(memLimitKey, "536870912".data)], [], []⟩

/-- C6 witness: with swap accounting, default enforcement and no
failing write, the trace is exactly the three clears to -1 (memsw, hard
limit, soft limit), then the hard limit, memsw and soft limit at the
new values. -/
theorem memoryApply_spec_witness :
    (∀ k ∈ (clearSteps memEnvOk ++ newSteps memEnvOk 1000000000).map Prod.fst,
        ¬ k ∈ memEnvOk.failKeys) ∧
    memoryApply memEnvOk 1000000000 =
      (none, clearSteps memEnvOk ++ newSteps memEnvOk 1000000000) :=
  ⟨by decide, (memoryApply_spec memEnvOk 1000000000 rfl).1 (by decide)⟩

/-! ### The operation registry (lxd/container_lxc.go)

`lxcContainerOperation` objects, the `lxcContainerOperations` map and
`createOperation` / `getOperation` / `Done` / `Reset` / the 30-second
timer goroutine, modelled as a transition system.  Operation objects
are identified by an allocation counter (`oid`, standing for Go
pointer identity).  Two step relations are used: `RaceStep`, in which
`createOperation`'s nil-check and its map insertion are separate
atomic sections (the source takes and releases
`lxcContainerOperationsLock` twice), and `SeqStep`, in which a whole
`createOperation` call runs without interleaving. -/

/-- One `lxcContainerOperation`: identity, container id, action,
reusability, current timer deadline, whether its timer goroutine has
fired, and its completion result (`none` while alive; `some err?` once
`Done` ran). -/
structure OpObj where
  oid : Nat
  cid : Nat
  action : List Char
  reusable : Bool
  deadline : Nat
  timerFired : Bool
  result : Option (Option (List Char))
deriving DecidableEq

/-- The process-wide registry state: a clock, the allocation counter,
every operation object created so far, the
`lxcContainerOperations` map (cid to oid), and the set of
`createOperation` calls that have passed the nil-check but not yet
inserted (the window between the two lock sections). -/
structure RegState where
  now : Nat
  nextOid : Nat
  ops : List OpObj
  table : List (Nat × Nat)
  pending : List (Nat × List Char × Bool)
deriving DecidableEq

/-- The initial state: empty map, no operations. -/
def initState : RegState := ⟨0, 0, [], [], []⟩

/-- Map read `lxcContainerOperations[cid]`. -/
def tableGet (t : List (Nat × Nat)) (cid : Nat) : Option Nat :=
  (t.find? (fun p => p.1 = cid)).map (·.2)

/-- Map write `lxcContainerOperations[cid] = oid`. -/
def tableSet (t : List (Nat × Nat)) (cid oid : Nat) : List (Nat × Nat) :=
  if (t.find? (fun p => p.1 = cid)).isSome then
    t.map (fun p => if p.1 = cid then (cid, oid) else p)
  else t ++ [(cid, oid)]

/-- Map delete `delete(lxcContainerOperations, cid)`. -/
def tableDel (t : List (Nat × Nat)) (cid : Nat) : List (Nat × Nat) :=
  t.filter (fun p => ¬ p.1 = cid)

/-- The operation object with the given identity. -/
def getOp (s : RegState) (oid : Nat) : Option OpObj :=
  s.ops.find? (fun o => o.oid = oid)

/-- Point update of one operation object. -/
def updOp (s : RegState) (oid : Nat) (f : OpObj → OpObj) : RegState :=
  { s with ops := s.ops.map (fun o => if o.oid = oid then f o else o) }

/-- `fmt.Errorf("Container is busy running a %s operation", op.action)`. -/
def busyMsg (action : List Char) : List Char :=
  "Container is busy running a ".data ++ action ++ " operation".data

/-- `fmt.Errorf("Container %s operation timed out after 30 seconds", op.action)`. -/
def timeoutMsg (action : List Char) : List Char :=
  "Container ".data ++ action ++ " operation timed out after 30 seconds".data

/-- `op.Done(err)`: under the lock, a no-op unless the map still holds
exactly this operation; otherwise record the error, close the channel
(modelled by `result := some err`) and delete the map entry. -/
def doneState (s : RegState) (oid : Nat) (err : Option (List Char)) : RegState :=
  match getOp s oid with
  | none => s
  | some op =>
    if tableGet s.table op.cid = some oid then
      { updOp s oid (fun o => { o with result := some err }) with
        table := tableDel s.table op.cid }
    else s

/-- The timer goroutine firing after its 30 seconds: `Done` with the
timeout error, then the goroutine exits (`timerFired`). -/
def fireState (s : RegState) (oid : Nat) : RegState :=
  match getOp s oid with
  | none => s
  | some op =>
    updOp (doneState s oid (some (timeoutMsg op.action))) oid
      (fun o => { o with timerFired := true })

/-- `op.Reset()` succeeded: the timer restarts, 30 seconds from now. -/
def resetOp (s : RegState) (oid : Nat) : RegState :=
  updOp s oid (fun o => { o with deadline := s.now + 30 })

/-- `op.Reset()`: fails on a non-reusable operation, else restarts the
timer. -/
def resetCall (s : RegState) (oid : Nat) : Except (List Char) RegState :=
  match getOp s oid with
  | none => Except.error "no running container operation".data
  | some op =>
    if op.reusable = false then
      Except.error "Can't reset a non-reusable operation".data
    else Except.ok (resetOp s oid)

/-- A `createOperation` call that has passed the nil-check records its
intent (the first lock section). -/
def pendState (s : RegState) (cid : Nat) (action : List Char) (reusable : Bool) :
    RegState :=
  { s with pending := s.pending ++ [(cid, action, reusable)] }

/-- The second lock section of `createOperation`: allocate the
operation (timer deadline 30 seconds out) and store it in the map,
overwriting whatever is there. -/
def insertState (s : RegState) (cid : Nat) (action : List Char) (reusable : Bool) :
    RegState :=
  { s with nextOid := s.nextOid + 1,
           ops := s.ops ++ [⟨s.nextOid, cid, action, reusable, s.now + 30, false, none⟩],
           table := tableSet s.table cid s.nextOid,
           pending := s.pending.erase (cid, action, reusable) }

/-- Time advances; it cannot step past a pending timer's deadline
(the timer fires then). -/
def tickState (s : RegState) : RegState :=
  { s with now := s.now + 1 }

/-- A whole `createOperation` call, atomically: an existing operation
is returned with its deadline reset when `reuse` is requested and it is
reusable, and otherwise the call fails with the busy error; with no
existing operation a fresh one is created and registered. -/
def createOperation (s : RegState) (cid : Nat) (action : List Char)
    (reusable reuse : Bool) : Except (List Char) Nat × RegState :=
  match tableGet s.table cid with
  | some oid =>
    match getOp s oid with
    | some op =>
      if reuse = true ∧ op.reusable = true then (Except.ok oid, resetOp s oid)
      else (Except.error (busyMsg op.action), s)
    | none => (Except.error "internal".data, s)
  | none => (Except.ok s.nextOid, insertState s cid action reusable)

/-- The fine-grained step relation: `createOperation`'s nil-check and
its insertion are separate steps, as in the source, where the lock is
released between them. -/
inductive RaceStep : RegState → RegState → Prop
  | checkNone (s : RegState) (cid : Nat) (action : List Char) (reusable : Bool) :
      tableGet s.table cid = none →
      RaceStep s (pendState s cid action reusable)
  | insert (s : RegState) (cid : Nat) (action : List Char) (reusable : Bool) :
      (cid, action, reusable) ∈ s.pending →
      RaceStep s (insertState s cid action reusable)
  | checkHit (s : RegState) (cid oid : Nat) (op : OpObj) (reuse : Bool) :
      tableGet s.table cid = some oid → getOp s oid = some op →
      RaceStep s (if reuse = true ∧ op.reusable = true then resetOp s oid else s)
  | callDone (s : RegState) (oid : Nat) (err : Option (List Char)) :
      RaceStep s (doneState s oid err)
  | timerFire (s : RegState) (oid : Nat) (op : OpObj) :
      getOp s oid = some op → op.timerFired = false → op.deadline ≤ s.now →
      RaceStep s (fireState s oid)
  | reset (s : RegState) (oid : Nat) (op : OpObj) :
      getOp s oid = some op → op.reusable = true →
      RaceStep s (resetOp s oid)
  | tick (s : RegState) :
      (∀ op ∈ s.ops, op.timerFired = false → s.now + 1 ≤ op.deadline) →
      RaceStep s (tickState s)

/-- The step relation with `createOperation` atomic. -/
inductive SeqStep : RegState → RegState → Prop
  | create (s : RegState) (cid : Nat) (action : List Char) (reusable reuse : Bool) :
      SeqStep s (createOperation s cid action reusable reuse).2
  | callDone (s : RegState) (oid : Nat) (err : Option (List Char)) :
      SeqStep s (doneState s oid err)
  | timerFire (s : RegState) (oid : Nat) (op : OpObj) :
      getOp s oid = some op → op.timerFired = false → op.deadline ≤ s.now →
      SeqStep s (fireState s oid)
  | reset (s : RegState) (oid : Nat) (op : OpObj) :
      getOp s oid = some op → op.reusable = true →
      SeqStep s (resetOp s oid)
  | tick (s : RegState) :
      (∀ op ∈ s.ops, op.timerFired = false → s.now + 1 ≤ op.deadline) →
      SeqStep s (tickState s)

/-- States reachable under the fine-grained relation. -/
inductive RaceReachable : RegState → Prop
  | init : RaceReachable initState
  | step {s s2 : RegState} : RaceReachable s → RaceStep s s2 → RaceReachable s2

/-- States reachable with `createOperation` atomic. -/
inductive SeqReachable : RegState → Prop
  | init : SeqReachable initState
  | step {s s2 : RegState} : SeqReachable s → SeqStep s s2 → SeqReachable s2

/-- The operations alive (created, not yet completed) for a container
id. -/
def aliveFor (s : RegState) (cid : Nat) : List OpObj :=
  s.ops.filter (fun o => o.cid = cid && o.result.isNone)

/-- How many operations are alive for a container id. -/
def countAlive (s : RegState) (cid : Nat) : Nat :=
  (aliveFor s cid).length

/-- Interleaving of two `createOperation` calls for container 7: both
pass the nil-check, then both insert. -/
def raceS1 : RegState := pendState initState 7 "start".data false

/-- Second nil-check passes too. -/
def raceS2 : RegState := pendState raceS1 7 "stop".data false

/-- First insertion. -/
def raceS3 : RegState := insertState raceS2 7 "start".data false

/-- Second insertion, overwriting the map entry. -/
def raceS4 : RegState := insertState raceS3 7 "stop".data false

/-- C2 (counterexample): with the two lock sections of
`createOperation` interleaved by two callers, a reachable state has
two operations alive for the same container id at the same time: the
second insertion overwrites the map entry, orphaning the first
operation (its `Done` no longer matches the map, so it can never
complete). -/
theorem operation_registry_race :
    RaceReachable raceS4 ∧ countAlive raceS4 7 = 2 := by
  constructor
  · exact RaceReachable.step
      (RaceReachable.step
        (RaceReachable.step
          (RaceReachable.step RaceReachable.init
            (RaceStep.checkNone initState 7 "start".data false (by decide)))
          (RaceStep.checkNone raceS1 7 "stop".data false (by decide)))
        (RaceStep.insert raceS2 7 "start".data false (by decide)))
      (RaceStep.insert raceS3 7 "stop".data false (by decide))
  · decide

lemma tableGet_none_iff (t : List (Nat × Nat)) (cid : Nat) :
    tableGet t cid = none ↔ ¬ cid ∈ t.map Prod.fst := by
  unfold tableGet
  rw [Option.map_eq_none', List.find?_eq_none]
  constructor
  · intro h hc
    obtain ⟨p, hp, hfst⟩ := List.mem_map.mp hc
    exact absurd (by simpa using hfst) (by simpa using h p hp)
  · intro h p hp
    simp only [decide_eq_true_eq]
    intro hc
    exact h (List.mem_map.mpr ⟨p, hp, hc⟩)

lemma tableGet_append_single (t : List (Nat × Nat)) (cid oid cid2 : Nat) :
    tableGet (t ++ [(cid, oid)]) cid2 =
      match tableGet t cid2 with
      | some o => some o
      | none => if cid2 = cid then some oid else none := by
  induction t with
  | nil =>
    unfold tableGet
    simp only [List.nil_append, List.find?_nil, Option.map_none']
    by_cases hc : cid2 = cid
    · subst hc
      rw [List.find?_cons_of_pos _ (by simp)]
      simp
    · rw [List.find?_cons_of_neg _ (by simp; exact fun hcc => hc hcc.symm),
        List.find?_nil]
      simp [hc]
  | cons p t ih =>
    by_cases hp : p.1 = cid2
    · unfold tableGet
      rw [List.cons_append, List.find?_cons_of_pos _ (by simpa using hp),
        List.find?_cons_of_pos _ (by simpa using hp)]
      simp
    · unfold tableGet at ih ⊢
      rw [List.cons_append, List.find?_cons_of_neg _ (by simpa using hp),
        List.find?_cons_of_neg _ (by simpa using hp)]
      exact ih

lemma tableGet_del_self (t : List (Nat × Nat)) (cid : Nat) :
    tableGet (tableDel t cid) cid = none := by
  unfold tableGet tableDel
  rw [Option.map_eq_none', List.find?_eq_none]
  intro p hp
  have := (List.mem_filter.mp hp).2
  simpa using this

lemma tableGet_del_other (t : List (Nat × Nat)) (cid cid2 : Nat) (h : ¬ cid2 = cid) :
    tableGet (tableDel t cid) cid2 = tableGet t cid2 := by
  induction t with
  | nil => rfl
  | cons p t ih =>
    by_cases hp : p.1 = cid
    · have hp2 : ¬ p.1 = cid2 := by rw [hp]; exact fun hc => h hc.symm
      unfold tableDel at ih ⊢
      rw [List.filter_cons_of_neg (by simpa using hp)]
      unfold tableGet at ih ⊢
      rw [List.find?_cons_of_neg _ (by simpa using hp2)]
      exact ih
    · unfold tableDel at ih ⊢
      rw [List.filter_cons_of_pos (by simpa using hp)]
      unfold tableGet at ih ⊢
      by_cases hp2 : p.1 = cid2
      · rw [List.find?_cons_of_pos _ (by simpa using hp2),
          List.find?_cons_of_pos _ (by simpa using hp2)]
      · rw [List.find?_cons_of_neg _ (by simpa using hp2),
          List.find?_cons_of_neg _ (by simpa using hp2)]
        exact ih

lemma mem_tableDel (t : List (Nat × Nat)) (cid : Nat) (p : Nat × Nat) :
    p ∈ tableDel t cid ↔ p ∈ t ∧ ¬ p.1 = cid := by
  unfold tableDel
  rw [List.mem_filter]
  simp

lemma tableDel_keys_nodup (t : List (Nat × Nat)) (cid : Nat)
    (h : (t.map Prod.fst).Nodup) : ((tableDel t cid).map Prod.fst).Nodup :=
  List.Nodup.sublist (List.Sublist.map Prod.fst (List.filter_sublist t)) h

lemma tableSet_absent (t : List (Nat × Nat)) (cid oid : Nat)
    (h : tableGet t cid = none) : tableSet t cid oid = t ++ [(cid, oid)] := by
  unfold tableSet
  unfold tableGet at h
  rw [Option.map_eq_none'] at h
  rw [h]
  rfl

lemma eq_of_mem_pairwise_oid :
    ∀ (l : List OpObj), l.Pairwise (fun a b => ¬ a.oid = b.oid) →
      ∀ a b : OpObj, a ∈ l → b ∈ l → a.oid = b.oid → a = b := by
  intro l
  induction l with
  | nil => intro _ a b ha; cases ha
  | cons x t ih =>
    intro hp a b ha hb hoid
    rcases List.mem_cons.mp ha with ha1 | ha2
    · rcases List.mem_cons.mp hb with hb1 | hb2
      · rw [ha1, hb1]
      · exfalso
        apply List.rel_of_pairwise_cons hp hb2
        rw [← ha1]
        exact hoid
    · rcases List.mem_cons.mp hb with hb1 | hb2
      · exfalso
        apply List.rel_of_pairwise_cons hp ha2
        rw [← hb1]
        exact hoid.symm
      · exact ih hp.of_cons a b ha2 hb2 hoid

lemma length_le_one_of_pairwise_conflict {α : Type} {l : List α} {R : α → α → Prop}
    (hp : l.Pairwise R) (h : ∀ a b : α, a ∈ l → b ∈ l → ¬ R a b) :
    l.length ≤ 1 := by
  cases l with
  | nil => simp
  | cons x t =>
    cases t with
    | nil => simp
    | cons y t2 =>
      exact absurd (List.rel_of_pairwise_cons hp (by simp))
        (h x y (by simp) (by simp [List.mem_cons]))

lemma getOp_mem (s : RegState) (oid : Nat) (op : OpObj)
    (h : getOp s oid = some op) : op ∈ s.ops ∧ op.oid = oid := by
  unfold getOp at h
  exact ⟨List.mem_of_find?_eq_some h, by simpa using List.find?_some h⟩

/-- The registry invariant maintained when `createOperation` calls are
serialized. -/
structure RegInv (s : RegState) : Prop where
  aliveReg : ∀ op ∈ s.ops, op.result = none → tableGet s.table op.cid = some op.oid
  tblAlive : ∀ p ∈ s.table,
    ∃ op, op ∈ s.ops ∧ op.oid = p.2 ∧ op.cid = p.1 ∧ op.result = none
  oidLt : ∀ op ∈ s.ops, op.oid < s.nextOid
  oidDistinct : s.ops.Pairwise (fun a b => ¬ a.oid = b.oid)
  tblKeys : (s.table.map Prod.fst).Nodup
  aliveNotFired : ∀ op ∈ s.ops, op.result = none → op.timerFired = false
  aliveDeadline : ∀ op ∈ s.ops, op.result = none → s.now ≤ op.deadline

lemma inv_initState : RegInv initState := by
  refine ⟨?_, ?_, ?_, ?_, ?_, ?_, ?_⟩ <;> simp [initState]

lemma inv_updOp (s : RegState) (oid : Nat) (f : OpObj → OpObj)
    (hinv : RegInv s)
    (hoid : ∀ o, (f o).oid = o.oid) (hcid : ∀ o, (f o).cid = o.cid)
    (hres : ∀ o, (f o).result = o.result)
    (hfired : ∀ o, (f o).timerFired = o.timerFired)
    (hdl : ∀ o, o.result = none → s.now ≤ o.deadline → s.now ≤ (f o).deadline) :
    RegInv (updOp s oid f) := by
  unfold updOp
  have hg : ∀ o : OpObj, (if o.oid = oid then f o else o).oid = o.oid := by
    intro o; by_cases h : o.oid = oid <;> simp [h, hoid]
  have hgcid : ∀ o : OpObj, (if o.oid = oid then f o else o).cid = o.cid := by
    intro o; by_cases h : o.oid = oid <;> simp [h, hcid]
  have hgres : ∀ o : OpObj, (if o.oid = oid then f o else o).result = o.result := by
    intro o; by_cases h : o.oid = oid <;> simp [h, hres]
  have hgfired : ∀ o : OpObj,
      (if o.oid = oid then f o else o).timerFired = o.timerFired := by
    intro o; by_cases h : o.oid = oid <;> simp [h, hfired]
  refine ⟨?_, ?_, ?_, ?_, ?_, ?_, ?_⟩
  · intro op2 hmem hres2
    obtain ⟨op0, hop0, heq⟩ := List.mem_map.mp hmem
    subst heq
    rw [hgcid, hg]
    exact hinv.aliveReg op0 hop0 (by rw [← hgres op0]; exact hres2)
  · intro p hp
    obtain ⟨op0, hop0, ho, hc, hr⟩ := hinv.tblAlive p hp
    refine ⟨if op0.oid = oid then f op0 else op0,
      List.mem_map.mpr ⟨op0, hop0, rfl⟩, ?_, ?_, ?_⟩
    · rw [hg]; exact ho
    · rw [hgcid]; exact hc
    · rw [hgres]; exact hr
  · intro op2 hmem
    obtain ⟨op0, hop0, heq⟩ := List.mem_map.mp hmem
    subst heq
    rw [hg]
    exact hinv.oidLt op0 hop0
  · rw [List.pairwise_map]
    refine hinv.oidDistinct.imp ?_
    intro a b h
    rw [hg, hg]
    exact h
  · exact hinv.tblKeys
  · intro op2 hmem hres2
    obtain ⟨op0, hop0, heq⟩ := List.mem_map.mp hmem
    subst heq
    rw [hgfired]
    exact hinv.aliveNotFired op0 hop0 (by rw [← hgres op0]; exact hres2)
  · intro op2 hmem hres2
    obtain ⟨op0, hop0, heq⟩ := List.mem_map.mp hmem
    subst heq
    have hr0 : op0.result = none := by rw [← hgres op0]; exact hres2
    by_cases h : op0.oid = oid
    · simp only [h, if_true]
      exact hdl op0 hr0 (hinv.aliveDeadline op0 hop0 hr0)
    · simp only [h, if_false]
      exact hinv.aliveDeadline op0 hop0 hr0

lemma inv_resetOp (s : RegState) (oid : Nat) (hinv : RegInv s) :
    RegInv (resetOp s oid) := by
  refine inv_updOp s oid _ hinv (fun o => rfl) (fun o => rfl) (fun o => rfl)
    (fun o => rfl) ?_
  intro o _ _
  simp

lemma tableGet_some_mem (t : List (Nat × Nat)) (c o : Nat)
    (h : tableGet t c = some o) : (c, o) ∈ t := by
  unfold tableGet at h
  cases hf : t.find? (fun p => p.1 = c) with
  | none => rw [hf] at h; cases h
  | some p =>
    rw [hf] at h
    have hp1 : p.1 = c := by simpa using List.find?_some hf
    have hp2 : p.2 = o := by simpa using h
    have hpc : p = (c, o) := by
      obtain ⟨a, b⟩ := p
      simp only at hp1 hp2
      rw [hp1, hp2]
    rw [← hpc]
    exact List.mem_of_find?_eq_some hf

lemma inv_insertState (s : RegState) (cid : Nat) (action : List Char)
    (reusable : Bool) (hinv : RegInv s) (hnone : tableGet s.table cid = none) :
    RegInv (insertState s cid action reusable) := by
  unfold insertState
  rw [tableSet_absent s.table cid s.nextOid hnone]
  refine ⟨?_, ?_, ?_, ?_, ?_, ?_, ?_⟩
  · intro op2 hmem hres
    rcases List.mem_append.mp hmem with hold | hnew
    · have hne : ¬ op2.cid = cid := by
        intro hc
        have := hinv.aliveReg op2 hold hres
        rw [hc] at this
        rw [hnone] at this
        cases this
      rw [tableGet_append_single]
      rw [hinv.aliveReg op2 hold hres]
    · simp only [List.mem_singleton] at hnew
      subst hnew
      rw [tableGet_append_single]
      simp only
      rw [hnone]
      simp
  · intro p hp
    rcases List.mem_append.mp hp with hold | hnew
    · obtain ⟨op0, hop0, ho, hc, hr⟩ := hinv.tblAlive p hold
      exact ⟨op0, List.mem_append_left _ hop0, ho, hc, hr⟩
    · simp only [List.mem_singleton] at hnew
      subst hnew
      exact ⟨⟨s.nextOid, cid, action, reusable, s.now + 30, false, none⟩,
        List.mem_append_right _ (by simp), rfl, rfl, rfl⟩
  · intro op2 hmem
    show op2.oid < s.nextOid + 1
    rcases List.mem_append.mp hmem with hold | hnew
    · have := hinv.oidLt op2 hold
      omega
    · simp only [List.mem_singleton] at hnew
      subst hnew
      show s.nextOid < s.nextOid + 1
      omega
  · rw [List.pairwise_append]
    refine ⟨hinv.oidDistinct, by simp, ?_⟩
    intro a ha b hb
    simp only [List.mem_singleton] at hb
    subst hb
    have := hinv.oidLt a ha
    simp only
    omega
  · rw [List.map_append]
    simp only [List.map_cons, List.map_nil]
    rw [List.nodup_append]
    refine ⟨hinv.tblKeys, by simp, ?_⟩
    intro a ha hb
    simp only [List.mem_singleton] at hb
    subst hb
    exact (tableGet_none_iff s.table a).mp hnone ha
  · intro op2 hmem hres
    rcases List.mem_append.mp hmem with hold | hnew
    · exact hinv.aliveNotFired op2 hold hres
    · simp only [List.mem_singleton] at hnew
      subst hnew
      rfl
  · intro op2 hmem hres
    rcases List.mem_append.mp hmem with hold | hnew
    · exact hinv.aliveDeadline op2 hold hres
    · simp only [List.mem_singleton] at hnew
      subst hnew
      simp

lemma doneState_none (s : RegState) (oid : Nat) (err : Option (List Char))
    (hget : getOp s oid = none) : doneState s oid err = s := by
  unfold doneState
  rw [hget]

lemma doneState_eq (s : RegState) (oid : Nat) (err : Option (List Char))
    (op : OpObj) (hget : getOp s oid = some op) :
    doneState s oid err =
      if tableGet s.table op.cid = some oid then
        { updOp s oid (fun o => { o with result := some err }) with
          table := tableDel s.table op.cid }
      else s := by
  unfold doneState
  rw [hget]

lemma inv_doneState (s : RegState) (oid : Nat) (err : Option (List Char))
    (hinv : RegInv s) : RegInv (doneState s oid err) := by
  cases hget : getOp s oid with
  | none => rw [doneState_none s oid err hget]; exact hinv
  | some op =>
    obtain ⟨hopmem, hopoid⟩ := getOp_mem s oid op hget
    rw [doneState_eq s oid err op hget]
    by_cases htab : tableGet s.table op.cid = some oid
    · rw [if_pos htab]
      unfold updOp
      refine ⟨?_, ?_, ?_, ?_, ?_, ?_, ?_⟩
      · intro op2 hmem hres
        obtain ⟨op0, hop0, heq⟩ := List.mem_map.mp hmem
        by_cases h : op0.oid = oid
        · exfalso
          rw [if_pos h] at heq
          rw [← heq] at hres
          cases hres
        · rw [if_neg h] at heq
          subst heq
          have hcidne : ¬ op0.cid = op.cid := by
            intro hc
            have := hinv.aliveReg op0 hop0 hres
            rw [hc, htab] at this
            exact h (Option.some.inj this).symm
          show tableGet (tableDel s.table op.cid) op0.cid = some op0.oid
          rw [tableGet_del_other _ _ _ hcidne]
          exact hinv.aliveReg op0 hop0 hres
      · intro p hp
        obtain ⟨hpt, hpne⟩ := (mem_tableDel _ _ _).mp hp
        obtain ⟨op0, hop0, ho, hc, hr⟩ := hinv.tblAlive p hpt
        have hne : ¬ op0.oid = oid := by
          intro hoe
          have : op0 = op :=
            eq_of_mem_pairwise_oid s.ops hinv.oidDistinct op0 op hop0 hopmem
              (by rw [hoe, hopoid])
          rw [this] at hc
          exact hpne hc.symm
        exact ⟨op0, List.mem_map.mpr ⟨op0, hop0, if_neg hne⟩, ho, hc, hr⟩
      · intro op2 hmem
        obtain ⟨op0, hop0, heq⟩ := List.mem_map.mp hmem
        show op2.oid < s.nextOid
        by_cases h : op0.oid = oid
        · rw [if_pos h] at heq
          rw [← heq]
          show op0.oid < s.nextOid
          exact hinv.oidLt op0 hop0
        · rw [if_neg h] at heq
          rw [← heq]
          exact hinv.oidLt op0 hop0
      · show List.Pairwise _ (s.ops.map _)
        have hgoid : ∀ o : OpObj,
            ((fun o => if o.oid = oid then { o with result := some err } else o) o).oid
              = o.oid := by
          intro o
          show (if o.oid = oid then
              ({ o with result := some err } : OpObj) else o).oid = o.oid
          by_cases h : o.oid = oid
          · rw [if_pos h]
          · rw [if_neg h]
        rw [List.pairwise_map]
        refine hinv.oidDistinct.imp ?_
        intro a b h
        rw [hgoid a, hgoid b]
        exact h
      · exact tableDel_keys_nodup _ _ hinv.tblKeys
      · intro op2 hmem hres
        obtain ⟨op0, hop0, heq⟩ := List.mem_map.mp hmem
        by_cases h : op0.oid = oid
        · exfalso
          rw [if_pos h] at heq
          rw [← heq] at hres
          cases hres
        · rw [if_neg h] at heq
          subst heq
          exact hinv.aliveNotFired op0 hop0 hres
      · intro op2 hmem hres
        obtain ⟨op0, hop0, heq⟩ := List.mem_map.mp hmem
        by_cases h : op0.oid = oid
        · exfalso
          rw [if_pos h] at heq
          rw [← heq] at hres
          cases hres
        · rw [if_neg h] at heq
          subst heq
          exact hinv.aliveDeadline op0 hop0 hres
    · rw [if_neg htab]
      exact hinv

lemma inv_markFired (s : RegState) (oid : Nat) (hinv : RegInv s)
    (hnotalive : ∀ op ∈ s.ops, op.oid = oid → ¬ op.result = none) :
    RegInv (updOp s oid (fun o => { o with timerFired := true })) := by
  unfold updOp
  refine ⟨?_, ?_, ?_, ?_, ?_, ?_, ?_⟩
  · intro op2 hmem hres
    obtain ⟨op0, hop0, heq⟩ := List.mem_map.mp hmem
    by_cases h : op0.oid = oid
    · exfalso
      rw [if_pos h] at heq
      rw [← heq] at hres
      exact hnotalive op0 hop0 h hres
    · rw [if_neg h] at heq
      subst heq
      exact hinv.aliveReg op0 hop0 hres
  · intro p hp
    obtain ⟨op0, hop0, ho, hc, hr⟩ := hinv.tblAlive p hp
    have hne : ¬ op0.oid = oid := fun hc2 => hnotalive op0 hop0 hc2 hr
    exact ⟨op0, List.mem_map.mpr ⟨op0, hop0, if_neg hne⟩, ho, hc, hr⟩
  · intro op2 hmem
    obtain ⟨op0, hop0, heq⟩ := List.mem_map.mp hmem
    show op2.oid < s.nextOid
    by_cases h : op0.oid = oid
    · rw [if_pos h] at heq
      rw [← heq]
      show op0.oid < s.nextOid
      exact hinv.oidLt op0 hop0
    · rw [if_neg h] at heq
      rw [← heq]
      exact hinv.oidLt op0 hop0
  · show List.Pairwise _ (s.ops.map _)
    have hgoid : ∀ o : OpObj,
        ((fun o => if o.oid = oid then { o with timerFired := true } else o) o).oid
          = o.oid := by
      intro o
      show (if o.oid = oid then
          ({ o with timerFired := true } : OpObj) else o).oid = o.oid
      by_cases h : o.oid = oid
      · rw [if_pos h]
      · rw [if_neg h]
    rw [List.pairwise_map]
    refine hinv.oidDistinct.imp ?_
    intro a b h
    rw [hgoid a, hgoid b]
    exact h
  · exact hinv.tblKeys
  · intro op2 hmem hres
    obtain ⟨op0, hop0, heq⟩ := List.mem_map.mp hmem
    by_cases h : op0.oid = oid
    · exfalso
      rw [if_pos h] at heq
      rw [← heq] at hres
      exact hnotalive op0 hop0 h (by simpa using hres)
    · rw [if_neg h] at heq
      subst heq
      exact hinv.aliveNotFired op0 hop0 hres
  · intro op2 hmem hres
    obtain ⟨op0, hop0, heq⟩ := List.mem_map.mp hmem
    by_cases h : op0.oid = oid
    · rw [if_pos h] at heq
      rw [← heq] at hres ⊢
      exact hinv.aliveDeadline op0 hop0 (by simpa using hres)
    · rw [if_neg h] at heq
      subst heq
      exact hinv.aliveDeadline op0 hop0 hres

lemma fireState_none (s : RegState) (oid : Nat)
    (hget : getOp s oid = none) : fireState s oid = s := by
  unfold fireState
  rw [hget]

lemma fireState_eq (s : RegState) (oid : Nat) (op : OpObj)
    (hget : getOp s oid = some op) :
    fireState s oid =
      updOp (doneState s oid (some (timeoutMsg op.action))) oid
        (fun o => { o with timerFired := true }) := by
  unfold fireState
  rw [hget]

lemma inv_fireState (s : RegState) (oid : Nat) (hinv : RegInv s) :
    RegInv (fireState s oid) := by
  cases hget : getOp s oid with
  | none => rw [fireState_none s oid hget]; exact hinv
  | some op =>
    rw [fireState_eq s oid op hget]
    obtain ⟨hopmem, hopoid⟩ := getOp_mem s oid op hget
    by_cases hres : op.result = none
    · have htab : tableGet s.table op.cid = some oid := by
        have := hinv.aliveReg op hopmem hres
        rwa [hopoid] at this
      apply inv_markFired _ oid
        (inv_doneState s oid (some (timeoutMsg op.action)) hinv)
      intro op2 hmem hoid2 hres2
      rw [doneState_eq s oid _ op hget, if_pos htab] at hmem
      simp only [updOp] at hmem
      obtain ⟨op0, hop0, heq⟩ := List.mem_map.mp hmem
      by_cases h : op0.oid = oid
      · rw [if_pos h] at heq
        rw [← heq] at hres2
        cases hres2
      · rw [if_neg h] at heq
        rw [← heq] at hoid2
        exact h hoid2
    · have htab : ¬ tableGet s.table op.cid = some oid := by
        intro hc
        obtain ⟨op0, hop0, ho, _, hr0⟩ := hinv.tblAlive (op.cid, oid)
          (tableGet_some_mem _ _ _ hc)
        have : op0 = op :=
          eq_of_mem_pairwise_oid s.ops hinv.oidDistinct op0 op hop0 hopmem
            (by rw [ho, hopoid])
        rw [this] at hr0
        exact hres hr0
      rw [doneState_eq s oid _ op hget, if_neg htab]
      apply inv_markFired s oid hinv
      intro op2 hmem hoid2 hres2
      have : op2 = op :=
        eq_of_mem_pairwise_oid s.ops hinv.oidDistinct op2 op hmem hopmem
          (by rw [hoid2, hopoid])
      rw [this] at hres2
      exact hres hres2

lemma inv_seqStep {s s2 : RegState} (hinv : RegInv s) (hstep : SeqStep s s2) :
    RegInv s2 := by
  cases hstep with
  | create cid action reusable reuse =>
    unfold createOperation
    cases htab : tableGet s.table cid with
    | some oid =>
      cases hget : getOp s oid with
      | some op =>
        by_cases hr : reuse = true ∧ op.reusable = true
        · simp only [htab, hget, if_pos hr]
          exact inv_resetOp s oid hinv
        · simp only [htab, hget, if_neg hr]
          exact hinv
      | none => simp only [htab, hget]; exact hinv
    | none =>
      simp only [htab]
      exact inv_insertState s cid action reusable hinv htab
  | callDone oid err => exact inv_doneState s oid err hinv
  | timerFire oid op hget hfired hdl => exact inv_fireState s oid hinv
  | reset oid op hget hru => exact inv_resetOp s oid hinv
  | tick hcond =>
    refine ⟨hinv.aliveReg, hinv.tblAlive, hinv.oidLt, hinv.oidDistinct,
      hinv.tblKeys, hinv.aliveNotFired, ?_⟩
    intro op2 hmem hres
    exact hcond op2 hmem (hinv.aliveNotFired op2 hmem hres)

lemma seqReachable_inv : ∀ s : RegState, SeqReachable s → RegInv s := by
  intro s h
  induction h with
  | init => exact inv_initState
  | step hr hstep ih => exact inv_seqStep ih hstep

lemma countAlive_le_one (s : RegState) (hinv : RegInv s) (cid : Nat) :
    countAlive s cid ≤ 1 := by
  unfold countAlive aliveFor
  apply length_le_one_of_pairwise_conflict
    (List.Pairwise.sublist (List.filter_sublist _) hinv.oidDistinct)
  intro a b ha hb
  obtain ⟨hamem, haprop⟩ := List.mem_filter.mp ha
  obtain ⟨hbmem, hbprop⟩ := List.mem_filter.mp hb
  rw [Bool.and_eq_true] at haprop hbprop
  have hacid : a.cid = cid := by simpa using haprop.1
  have hbcid : b.cid = cid := by simpa using hbprop.1
  have hares : a.result = none := by
    simpa [Option.isNone_iff_eq_none] using haprop.2
  have hbres : b.result = none := by
    simpa [Option.isNone_iff_eq_none] using hbprop.2
  have h1 := hinv.aliveReg a hamem hares
  have h2 := hinv.aliveReg b hbmem hbres
  rw [hacid] at h1
  rw [hbcid] at h2
  rw [h1] at h2
  intro hne
  exact hne (by simpa using h2)

lemma find?_map_oid_preserving (ops : List OpObj) (oid : Nat) (g : OpObj → OpObj)
    (hg : ∀ o, (g o).oid = o.oid) :
    (ops.map g).find? (fun o => o.oid = oid) =
      (ops.find? (fun o => o.oid = oid)).map g := by
  induction ops with
  | nil => rfl
  | cons o t ih =>
    by_cases ho : o.oid = oid
    · rw [List.map_cons, List.find?_cons_of_pos _ (by simp [hg, ho]),
        List.find?_cons_of_pos _ (by simpa using ho)]
      rfl
    · rw [List.map_cons, List.find?_cons_of_neg _ (by simp [hg, ho]),
        List.find?_cons_of_neg _ (by simpa using ho)]
      exact ih

/-- C2 (amended): when `createOperation` calls do not interleave (the
source releases the registry lock between its nil-check and its
insertion, so two concurrent calls can break this; see the race
counterexample), every reachable state has at most one live operation
per container id, and no live operation outlives its deadline — 30
seconds after its creation or last reset — because the timer fires
`Done` with the timeout error then.  `createOperation` on an id with an
existing operation returns it with its deadline reset when `reuse` is
requested and the operation is reusable, and otherwise fails with
"Container is busy running a <action> operation"; `Reset` fails on a
non-reusable operation. -/
theorem operation_registry_amended :
    (∀ s : RegState, SeqReachable s → ∀ cid : Nat, countAlive s cid ≤ 1 ∧
      ∀ op ∈ s.ops, op.result = none → s.now ≤ op.deadline) ∧
    (∀ (s : RegState) (cid : Nat) (action : List Char) (reusable reuse : Bool)
        (oid : Nat) (op : OpObj),
      tableGet s.table cid = some oid → getOp s oid = some op →
      (createOperation s cid action reusable reuse).1 =
        (if reuse = true ∧ op.reusable = true then Except.ok oid
         else Except.error (busyMsg op.action)) ∧
      (createOperation s cid action reusable reuse).2 =
        (if reuse = true ∧ op.reusable = true then resetOp s oid else s)) ∧
    (∀ (s : RegState) (oid : Nat) (op : OpObj), getOp s oid = some op →
      op.reusable = false →
      resetCall s oid = Except.error "Can't reset a non-reusable operation".data) ∧
    (∀ (s : RegState) (oid : Nat) (op : OpObj), getOp s oid = some op →
      op.result = none → tableGet s.table op.cid = some oid →
      getOp (fireState s oid) oid =
        some { op with timerFired := true,
                       result := some (some (timeoutMsg op.action)) }) := by
  refine ⟨?_, ?_, ?_, ?_⟩
  · intro s hreach cid
    have hinv := seqReachable_inv s hreach
    exact ⟨countAlive_le_one s hinv cid, hinv.aliveDeadline⟩
  · intro s cid action reusable reuse oid op htab hget
    unfold createOperation
    simp only [htab, hget]
    by_cases hr : reuse = true ∧ op.reusable = true
    · simp [hr]
    · simp [hr]
  · intro s oid op hget hru
    unfold resetCall
    simp only [hget]
    rw [if_pos hru]
  · intro s oid op hget hres htab
    have hopoid := (getOp_mem s oid op hget).2
    rw [fireState_eq s oid op hget, doneState_eq s oid _ op hget, if_pos htab]
    unfold getOp updOp
    simp only
    rw [find?_map_oid_preserving _ oid _ (by intro o; by_cases h : o.oid = oid <;> simp [h]),
      find?_map_oid_preserving _ oid _ (by intro o; by_cases h : o.oid = oid <;> simp [h])]
    unfold getOp at hget
    rw [hget]
    simp [hopoid]

/-- C2 witness: after one atomic `createOperation` on an empty
registry, the state is reachable and container 7 has exactly one live
operation, within its deadline. -/
theorem operation_registry_amended_witness :
    SeqReachable (createOperation initState 7 "start".data false false).2 ∧
    countAlive (createOperation initState 7 "start".data false false).2 7 ≤ 1 :=
  ⟨SeqReachable.step SeqReachable.init
    (SeqStep.create initState 7 "start".data false false),
   (operation_registry_amended.1
     (createOperation initState 7 "start".data false false).2
     (SeqReachable.step SeqReachable.init
       (SeqStep.create initState 7 "start".data false false)) 7).1⟩

/-! ### `deviceTaskBalance` (lxd/devices.go)

The CPU rebalance: the host's effective non-isolated cpu list `E` is
taken as input (already parsed); the textual form that replaces an
absent `limits.cpu` is rebuilt from it, as the source does.  Go map
iteration order is unspecified and `sort.Sort` is unstable, so the
order in which the per-cpu usage records reach the sort is arbitrary:
the sorted scan order is a parameter (`BalanceOracle`) constrained only
to be a permutation of `E` sorted by usage count, exactly what
`sort.Sort(deviceTaskCPUs)` guarantees with `Less` comparing counts
alone.  Containers and usage records are processed in list order where
the source iterates maps. -/

/-- Generic insertion into a `Bool`-ordered list. -/
def insertByB {α : Type} (le : α → α → Bool) (x : α) : List α → List α
  | [] => [x]
  | y :: ys => if le x y then x :: y :: ys else y :: insertByB le x ys

/-- Generic insertion sort. -/
def sortByB {α : Type} (le : α → α → Bool) : List α → List α
  | [] => []
  | x :: xs => insertByB le x (sortByB le xs)

lemma insertByB_perm {α : Type} (le : α → α → Bool) (x : α) :
    ∀ l : List α, (insertByB le x l).Perm (x :: l) := by
  intro l
  induction l with
  | nil => simp [insertByB]
  | cons y ys ih =>
    by_cases h : le x y
    · simp [insertByB, h]
    · simp only [insertByB, if_neg h]
      exact (ih.cons y).trans (List.Perm.swap x y ys)

lemma sortByB_perm {α : Type} (le : α → α → Bool) :
    ∀ l : List α, (sortByB le l).Perm l := by
  intro l
  induction l with
  | nil => simp [sortByB]
  | cons x xs ih =>
    exact (insertByB_perm le x (sortByB le xs)).trans (ih.cons x)

lemma insertByB_sorted {α : Type} (le : α → α → Bool)
    (htot : ∀ a b, le a b = true ∨ le b a = true)
    (htrans : ∀ a b c, le a b = true → le b c = true → le a c = true) (x : α) :
    ∀ l : List α, List.Pairwise (fun a b => le a b = true) l →
      List.Pairwise (fun a b => le a b = true) (insertByB le x l) := by
  intro l
  induction l with
  | nil => intro _; simp [insertByB]
  | cons y ys ih =>
    intro hs
    by_cases h : le x y
    · simp only [insertByB, if_pos h]
      refine List.Pairwise.cons ?_ hs
      intro b hb
      rcases List.mem_cons.mp hb with hb | hb
      · rw [hb]; exact h
      · exact htrans x y b h (List.rel_of_pairwise_cons hs hb)
    · simp only [insertByB, if_neg h]
      refine List.Pairwise.cons ?_ (ih hs.of_cons)
      intro b hb
      have hb2 : b ∈ x :: ys := (insertByB_perm le x ys).mem_iff.mp hb
      rcases List.mem_cons.mp hb2 with hb2 | hb2
      · rw [hb2]
        rcases htot x y with hxy | hyx
        · exact absurd hxy h
        · exact hyx
      · exact List.rel_of_pairwise_cons hs hb2

lemma sortByB_sorted {α : Type} (le : α → α → Bool)
    (htot : ∀ a b, le a b = true ∨ le b a = true)
    (htrans : ∀ a b c, le a b = true → le b c = true → le a c = true) :
    ∀ l : List α, List.Pairwise (fun a b => le a b = true) (sortByB le l) := by
  intro l
  induction l with
  | nil => simp [sortByB]
  | cons x xs ih => exact insertByB_sorted le htot htrans x (sortByB le xs) ih

/-- `sort.Strings`. -/
def strLeB : List Char → List Char → Bool
  | [], _ => true
  | _ :: _, [] => false
  | a :: as, b :: bs => if a = b then strLeB as bs else decide (a.toNat < b.toNat)

/-- `sort.Strings` applied to the cpu-id strings of a pinning set. -/
def sortStrings : List (List Char) → List (List Char) :=
  sortByB strLeB

/-- What `deviceTaskBalance` reads from one container: identity,
whether it was running when the container list was scanned, whether it
is still running when the pinning is applied, and its expanded
`limits.cpu` (empty = absent). -/
structure BalCtn where
  ident : Nat
  runningLoad : Bool
  runningApply : Bool
  limit : List Char
deriving DecidableEq

/-- The `limits.cpu` value after the absent-value substitution: an
absent or empty limit is replaced by the textual effective cpu list. -/
def limOf (cpus : List Int) (c : BalCtn) : List Char :=
  if c.limit = [] then joinComma (cpus.map intToDec) else c.limit

/-- The classification loop of `deviceTaskBalance`: skip containers not
running at load time; a limit that `strconv.Atoi` accepts makes the
container balanced with count `min(count, len(cpus))`; otherwise the
limit goes through `parseCpuset` (an error aborts the whole rebalance)
and each requested cpu present in `E` contributes one
`fixedContainers` pair. -/
def classifyLoop (cpus : List Int) (effStr : List Char) :
    List BalCtn → Option (List (Int × BalCtn) × List (BalCtn × Int))
  | [] => some ([], [])
  | c :: rest =>
    if c.runningLoad = false then classifyLoop cpus effStr rest
    else
      match goAtoi (if c.limit = [] then effStr else c.limit) with
      | some count =>
        match classifyLoop cpus effStr rest with
        | some (f, b) => some (f, (c, min count (cpus.length : Int)) :: b)
        | none => none
      | none =>
        match parseCpuset (if c.limit = [] then effStr else c.limit) with
        | none => none
        | some ccpus =>
          match classifyLoop cpus effStr rest with
          | some (f, b) =>
            some (((ccpus.filter (fun nr => nr ∈ cpus)).map (fun nr => (nr, c))) ++ f, b)
          | none => none

/-- Add one cpu to a container's pinning list
(`pinning[ctn] = append(pinning[ctn], id)`). -/
def addPin : List (BalCtn × List Int) → BalCtn → Int → List (BalCtn × List Int)
  | [], c, cpu => [(c, [cpu])]
  | e :: rest, c, cpu =>
    if e.1 = c then (e.1, e.2 ++ [cpu]) :: rest else e :: addPin rest c cpu

/-- The pinned loop: every `fixedContainers` pair contributes its cpu
to the container's pinning list. -/
def pinnedPhase (pairs : List (Int × BalCtn)) : List (BalCtn × List Int) :=
  pairs.foldl (fun m p => addPin m p.2 p.1) []

/-- The per-cpu usage counters after the pinned loop: each pair
incremented its cpu once. -/
def pinnedUsage (cpus : List Int) (pairs : List (Int × BalCtn)) : List (Int × Nat) :=
  cpus.map (fun x => (x, (pairs.filter (fun p => p.1 = x)).length))

/-- Read one cpu's usage counter. -/
def countIn (U : List (Int × Nat)) (c : Int) : Nat :=
  ((U.find? (fun e => e.1 = c)).map (·.2)).getD 0

/-- `*cpu.count += 1` for every picked cpu. -/
def bumpUsage (U : List (Int × Nat)) (picks : List Int) : List (Int × Nat) :=
  U.map (fun e => if e.1 ∈ picks then (e.1, e.2 + 1) else e)

/-- The inner pick loop of the balanced phase: walk the sorted usage
slice, stopping when the counter hits zero (a negative counter never
does and picks every cpu). -/
def pickCpus : Int → List Int → List Int
  | _, [] => []
  | count, cpu :: rest => if count = 0 then [] else cpu :: pickCpus (count - 1) rest

/-- The scan order produced by `sort.Sort(sortedUsage)`: a function of
the current usage counters and the cpu set. -/
def BalanceOracle : Type :=
  List (Int × Nat) → List Int → List Int

/-- What Go guarantees about the sorted slice: a permutation of the
cpus, sorted by usage count (`deviceTaskCPUs.Less` compares counts
only, so ties land in arbitrary order). -/
def oracleOK (ord : BalanceOracle) : Prop :=
  ∀ U cpus, (ord U cpus).Perm cpus ∧
    (ord U cpus).Pairwise (fun a b => countIn U a ≤ countIn U b)

/-- The balanced loop: per container (list order standing for Go's map
order), re-sort the usage slice, pick `count` cpus, bump their
counters.  A container that picks nothing never enters the pinning map.
Each produced entry carries the usage snapshot it was picked under. -/
def balancedPhase (ord : BalanceOracle) (cpus : List Int) :
    List (BalCtn × Int) → List (Int × Nat) →
      List (BalCtn × List Int × List (Int × Nat))
  | [], _ => []
  | (c, count) :: rest, U =>
    (if pickCpus count (ord U cpus) = [] then []
     else [(c, pickCpus count (ord U cpus), U)]) ++
      balancedPhase ord cpus rest (bumpUsage U (pickCpus count (ord U cpus)))

/-- `deviceTaskBalance`, from the parsed effective cpu list to the
`cpuset.cpus` writes: classify, run the pinned loop, run the balanced
loop, then write each still-running container's sorted cpu set
(`none` = the rebalance aborted on a cpuset parse error and wrote
nothing). -/
def deviceTaskBalance (ord : BalanceOracle) (cpus : List Int)
    (ctns : List BalCtn) : Option (List (BalCtn × List Char)) :=
  match classifyLoop cpus (joinComma (cpus.map intToDec)) ctns with
  | none => none
  | some (fixedPairs, balanced) =>
    let pinning1 := pinnedPhase fixedPairs
    let entries2 := balancedPhase ord cpus balanced (pinnedUsage cpus fixedPairs)
    let pinningAll := pinning1 ++ entries2.map (fun e => (e.1, e.2.1))
    some ((pinningAll.filter (fun e => e.1.runningApply)).map
      (fun e => (e.1, joinComma (sortStrings (e.2.map intToDec)))))

/-- A concrete scan order: sort by usage count with ties toward the
lowest cpu id — the tie-break the claim asserts. -/
def cpuLe (U : List (Int × Nat)) (a b : Int) : Bool :=
  decide (countIn U a < countIn U b) ||
    (decide (countIn U a = countIn U b) && decide (a ≤ b))

/-- The claim-friendliest valid oracle: count order, ties by id. -/
def sortCpusByCount : BalanceOracle :=
  fun U cpus => sortByB (cpuLe U) cpus

/-- C3 (counterexample): on a one-cpu host (`E = {0}`) a running
container without `limits.cpu` gets no `cpuset.cpus` write at all, even
under the tie-friendliest scan order: the absent limit is replaced by
the textual cpu list `"0"`, which `strconv.Atoi` parses as the integer
0, so the container is balanced with count 0 and picks nothing — while
the claim says it is balanced with `k = |E| = 1` and is assigned cpu 0.
The code's write list is empty instead of holding the claimed
assignment. -/
theorem deviceTaskBalance_counterexample :
    deviceTaskBalance sortCpusByCount [0] [⟨1, true, true, []⟩] = some [] ∧
    some ([] : List (BalCtn × List Char)) ≠
      some [(⟨1, true, true, []⟩, "0".data)] := by
  refine ⟨?_, by decide⟩
  decide

lemma pickCpus_eq_take :
    ∀ (count : Int) (order : List Int), ∃ n, pickCpus count order = order.take n := by
  intro count order
  induction order generalizing count with
  | nil => exact ⟨0, rfl⟩
  | cons cpu rest ih =>
    by_cases h : count = 0
    · exact ⟨0, by simp [pickCpus, h]⟩
    · obtain ⟨n, hn⟩ := ih (count - 1)
      exact ⟨n + 1, by simp [pickCpus, h, hn]⟩

lemma pickCpus_length :
    ∀ (count : Int) (order : List Int),
      (pickCpus count order).length =
        if count < 0 then order.length else min count.toNat order.length := by
  intro count order
  induction order generalizing count with
  | nil => simp [pickCpus]
  | cons cpu rest ih =>
    by_cases h : count = 0
    · simp [pickCpus, h]
    · simp only [pickCpus, if_neg h, List.length_cons, ih (count - 1)]
      by_cases hneg : count < 0
      · rw [if_pos (by omega), if_pos hneg]
      · rw [if_neg (by omega), if_neg hneg]
        omega

lemma pickCpus_subset (count : Int) (order : List Int) :
    ∀ p ∈ pickCpus count order, p ∈ order := by
  obtain ⟨n, hn⟩ := pickCpus_eq_take count order
  rw [hn]
  exact fun p hp => List.take_subset n order hp

lemma pickCpus_least (U : List (Int × Nat)) (count : Int) (order : List Int)
    (hs : List.Pairwise (fun a b => countIn U a ≤ countIn U b) order) :
    ∀ p ∈ pickCpus count order, ∀ q ∈ order, ¬ q ∈ pickCpus count order →
      countIn U p ≤ countIn U q := by
  obtain ⟨n, hn⟩ := pickCpus_eq_take count order
  rw [hn]
  intro p hp q hq hnq
  have hq2 : q ∈ order.take n ++ order.drop n := by
    rw [List.take_append_drop]
    exact hq
  rcases List.mem_append.mp hq2 with hq3 | hq3
  · exact absurd hq3 hnq
  · exact List.Sorted.rel_of_mem_take_of_mem_drop hs hp hq3

lemma bal_length_eq (ord : BalanceOracle) (hord : oracleOK ord)
    (U : List (Int × Nat)) (cpus : List Int) :
    (ord U cpus).length = cpus.length :=
  ((hord U cpus).1).length_eq

lemma balancedPhase_spec (ord : BalanceOracle) (hord : oracleOK ord)
    (cpus : List Int) :
    ∀ (bal : List (BalCtn × Int)) (U : List (Int × Nat)),
      ∀ e ∈ balancedPhase ord cpus bal U,
        (∃ cnt, (e.1, cnt) ∈ bal ∧
          e.2.1 = pickCpus cnt (ord e.2.2 cpus) ∧
          e.2.1.length =
            (if cnt < 0 then cpus.length else min cnt.toNat cpus.length)) ∧
        (∀ p ∈ e.2.1, p ∈ cpus) ∧
        (∀ p ∈ e.2.1, ∀ q ∈ cpus, ¬ q ∈ e.2.1 →
          countIn e.2.2 p ≤ countIn e.2.2 q) := by
  intro bal
  induction bal with
  | nil => intro U e he; cases he
  | cons hd rest ih =>
    intro U e he
    obtain ⟨c, count⟩ := hd
    simp only [balancedPhase] at he
    rcases List.mem_append.mp he with hhd | htl
    · have hpe : ¬ pickCpus count (ord U cpus) = [] := by
        intro hc
        rw [hc] at hhd
        simp at hhd
      rw [if_neg hpe] at hhd
      simp only [List.mem_singleton] at hhd
      subst hhd
      refine ⟨⟨count, by simp, rfl, ?_⟩, ?_, ?_⟩
      · show (pickCpus count (ord U cpus)).length = _
        rw [pickCpus_length, bal_length_eq ord hord U cpus]
      · intro p hp
        exact ((hord U cpus).1).mem_iff.mp (pickCpus_subset _ _ p hp)
      · intro p hp q hq hnq
        exact pickCpus_least U count (ord U cpus) ((hord U cpus).2) p hp q
          (((hord U cpus).1).mem_iff.mpr hq) hnq
    · obtain ⟨⟨cnt, hmem, hrest⟩, hsub, hleast⟩ := ih _ e htl
      exact ⟨⟨cnt, List.mem_cons_of_mem _ hmem, hrest⟩, hsub, hleast⟩

/-- Read a container's pinning list. -/
def lookupPin (m : List (BalCtn × List Int)) (c : BalCtn) : Option (List Int) :=
  (m.find? (fun e => e.1 = c)).map (·.2)

lemma lookupPin_addPin (c2 : BalCtn) (cpu : Int) (c : BalCtn) :
    ∀ m : List (BalCtn × List Int),
      lookupPin (addPin m c2 cpu) c =
        if c = c2 then some ((lookupPin m c2).getD [] ++ [cpu])
        else lookupPin m c := by
  intro m
  induction m with
  | nil =>
    by_cases hc : c = c2
    · subst hc
      simp [addPin, lookupPin]
    · have hc2 : ¬ c2 = c := fun h => hc h.symm
      simp [addPin, lookupPin, hc, hc2]
  | cons e rest ih =>
    by_cases he : e.1 = c2
    · simp only [addPin, if_pos he]
      by_cases hc : c = c2
      · subst hc
        unfold lookupPin
        rw [List.find?_cons_of_pos _ (by simp [he]),
          List.find?_cons_of_pos _ (by simp [he]), if_pos rfl]
        simp
      · have he2 : ¬ e.1 = c := by rw [he]; exact fun h => hc h.symm
        unfold lookupPin
        rw [List.find?_cons_of_neg _ (by simp [he2]),
          if_neg hc, List.find?_cons_of_neg _ (by simp [he2])]
    · simp only [addPin, if_neg he]
      by_cases hec : e.1 = c
      · have hc : ¬ c = c2 := by rw [← hec]; exact he
        unfold lookupPin
        rw [List.find?_cons_of_pos _ (by simp [hec]), if_neg hc,
          List.find?_cons_of_pos _ (by simp [hec])]
      · unfold lookupPin at ih ⊢
        rw [List.find?_cons_of_neg _ (by simp [hec])]
        by_cases hc : c = c2
        · rw [if_pos hc] at ih ⊢
          rw [List.find?_cons_of_neg _ (by simp [he]), ih]
        · rw [if_neg hc] at ih ⊢
          rw [List.find?_cons_of_neg _ (by simp [hec]), ih]

lemma pinnedPhase_foldl_lookup (c : BalCtn) :
    ∀ (pairs : List (Int × BalCtn)) (m : List (BalCtn × List Int)),
      lookupPin (pairs.foldl (fun m p => addPin m p.2 p.1) m) c =
        (match lookupPin m c with
         | some l => some (l ++ ((pairs.filter (fun pr => pr.2 = c)).map (·.1)))
         | none =>
           if (pairs.filter (fun pr => pr.2 = c)).map (·.1) = [] then none
           else some ((pairs.filter (fun pr => pr.2 = c)).map (·.1))) := by
  intro pairs
  induction pairs with
  | nil =>
    intro m
    cases h : lookupPin m c with
    | none => simp [h]
    | some l => simp [h]
  | cons pr rest ih =>
    intro m
    obtain ⟨cpu, ct⟩ := pr
    simp only [List.foldl_cons, List.filter_cons]
    by_cases hc : ct = c
    · subst hc
      simp only [decide_eq_true_eq, if_pos rfl, List.map_cons]
      rw [ih (addPin m ct cpu), lookupPin_addPin ct cpu ct m, if_pos rfl]
      cases h : lookupPin m ct with
      | none => simp [h]
      | some l => simp [h]
    · rw [if_neg (by simp [hc])]
      rw [ih (addPin m ct cpu), lookupPin_addPin ct cpu c m, if_neg (fun h => hc h.symm)]

lemma pinnedPhase_lookup (pairs : List (Int × BalCtn)) (c : BalCtn) :
    lookupPin (pinnedPhase pairs) c =
      (if (pairs.filter (fun pr => pr.2 = c)).map (·.1) = [] then none
       else some ((pairs.filter (fun pr => pr.2 = c)).map (·.1))) := by
  unfold pinnedPhase
  rw [pinnedPhase_foldl_lookup c pairs []]
  rfl

lemma lookupPin_mem (m : List (BalCtn × List Int)) (c : BalCtn) (l : List Int)
    (h : lookupPin m c = some l) : (c, l) ∈ m := by
  unfold lookupPin at h
  cases hf : m.find? (fun e => e.1 = c) with
  | none => rw [hf] at h; cases h
  | some e =>
    rw [hf] at h
    have he1 : e.1 = c := by simpa using List.find?_some hf
    have he2 : e.2 = l := by simpa using h
    have : e = (c, l) := by
      obtain ⟨a, b⟩ := e
      simp only at he1 he2
      rw [he1, he2]
    rw [← this]
    exact List.mem_of_find?_eq_some hf

lemma cpuLe_total (U : List (Int × Nat)) :
    ∀ a b, cpuLe U a b = true ∨ cpuLe U b a = true := by
  intro a b
  unfold cpuLe
  rcases lt_trichotomy (countIn U a) (countIn U b) with h | h | h
  · left; simp [h]
  · rcases le_total a b with hab | hab
    · left; simp [h, hab]
    · right; simp [h.symm, hab]
  · right; simp [h]

lemma cpuLe_trans (U : List (Int × Nat)) :
    ∀ a b c, cpuLe U a b = true → cpuLe U b c = true → cpuLe U a c = true := by
  intro a b c hab hbc
  unfold cpuLe at hab hbc ⊢
  simp only [Bool.or_eq_true, Bool.and_eq_true, decide_eq_true_eq] at hab hbc ⊢
  rcases hab with h1 | ⟨h1, h2⟩ <;> rcases hbc with h3 | ⟨h3, h4⟩
  · exact Or.inl (h1.trans h3)
  · exact Or.inl (h3 ▸ h1)
  · exact Or.inl (h1 ▸ h3)
  · exact Or.inr ⟨h1.trans h3, h2.trans h4⟩

lemma oracleOK_sortCpusByCount : oracleOK sortCpusByCount := by
  intro U cpus
  refine ⟨sortByB_perm (cpuLe U) cpus, ?_⟩
  have hs := sortByB_sorted (cpuLe U) (cpuLe_total U) (cpuLe_trans U) cpus
  refine hs.imp ?_
  intro a b hab
  unfold cpuLe at hab
  simp only [Bool.or_eq_true, Bool.and_eq_true, decide_eq_true_eq] at hab
  rcases hab with h | ⟨h, _⟩
  · exact le_of_lt h
  · exact le_of_eq h

lemma classify_fixed_mem (cpus : List Int) (eff : List Char) :
    ∀ (ctns : List BalCtn) (f : List (Int × BalCtn)) (b : List (BalCtn × Int)),
      classifyLoop cpus eff ctns = some (f, b) →
      ∀ pr ∈ f, pr.2 ∈ ctns := by
  intro ctns
  induction ctns with
  | nil =>
    intro f b hcl pr hpr
    simp only [classifyLoop, Option.some_inj, Prod.mk.injEq] at hcl
    rw [← hcl.1] at hpr
    cases hpr
  | cons c0 rest ih =>
    intro f b hcl pr hpr
    unfold classifyLoop at hcl
    by_cases h0 : c0.runningLoad = false
    · rw [if_pos h0] at hcl
      exact List.mem_cons_of_mem c0 (ih f b hcl pr hpr)
    · rw [if_neg h0] at hcl
      cases hA : goAtoi (if c0.limit = [] then eff else c0.limit) with
      | some count =>
        rw [hA] at hcl
        cases hR : classifyLoop cpus eff rest with
        | none => rw [hR] at hcl; cases hcl
        | some fb =>
          obtain ⟨f0, b0⟩ := fb
          rw [hR] at hcl
          simp only [Option.some_inj, Prod.mk.injEq] at hcl
          rw [← hcl.1] at hpr
          exact List.mem_cons_of_mem c0 (ih f0 b0 hR pr hpr)
      | none =>
        rw [hA] at hcl
        cases hP : parseCpuset (if c0.limit = [] then eff else c0.limit) with
        | none => rw [hP] at hcl; cases hcl
        | some pc0 =>
          rw [hP] at hcl
          cases hR : classifyLoop cpus eff rest with
          | none => rw [hR] at hcl; cases hcl
          | some fb =>
            obtain ⟨f0, b0⟩ := fb
            rw [hR] at hcl
            simp only [Option.some_inj, Prod.mk.injEq] at hcl
            rw [← hcl.1] at hpr
            rcases List.mem_append.mp hpr with hpr | hpr
            · obtain ⟨nr, _, hnr⟩ := List.mem_map.mp hpr
              rw [← hnr]
              exact List.mem_cons_self c0 rest
            · exact List.mem_cons_of_mem c0 (ih f0 b0 hR pr hpr)

lemma ne_of_ident_ne (c d : BalCtn) (h : ¬ c.ident = d.ident) : ¬ c = d :=
  fun he => h (by rw [he])

lemma filter_map_pair_self (c : BalCtn) :
    ∀ l : List Int,
      (l.map (fun nr => (nr, c))).filter (fun pr => pr.2 = c) =
        l.map (fun nr => (nr, c)) := by
  intro l
  induction l with
  | nil => rfl
  | cons x xs ih => simp [List.filter_cons, ih]

lemma filter_map_pair_other (c c0 : BalCtn) (hne : ¬ c0 = c) :
    ∀ l : List Int,
      (l.map (fun nr => (nr, c0))).filter (fun pr => pr.2 = c) = [] := by
  intro l
  induction l with
  | nil => rfl
  | cons x xs ih => simp [List.filter_cons, ih, hne]

lemma classify_fixed_of_pinned (cpus : List Int) (eff : List Char) (c : BalCtn)
    (hrl : c.runningLoad = true)
    (hA : goAtoi (if c.limit = [] then eff else c.limit) = none)
    (pc : List Int)
    (hP : parseCpuset (if c.limit = [] then eff else c.limit) = some pc) :
    ∀ (ctns : List BalCtn) (f : List (Int × BalCtn)) (b : List (BalCtn × Int)),
      (ctns.map BalCtn.ident).Nodup →
      classifyLoop cpus eff ctns = some (f, b) →
      c ∈ ctns →
      f.filter (fun pr => pr.2 = c) =
        (pc.filter (fun nr => nr ∈ cpus)).map (fun nr => (nr, c)) := by
  intro ctns
  induction ctns with
  | nil => intro f b _ _ hc; cases hc
  | cons c0 rest ih =>
    intro f b hn hcl hc
    rw [List.map_cons] at hn
    have hn1 : ¬ c0.ident ∈ rest.map BalCtn.ident := (List.nodup_cons.mp hn).1
    have hn2 : (rest.map BalCtn.ident).Nodup := (List.nodup_cons.mp hn).2
    unfold classifyLoop at hcl
    by_cases h0 : c0.runningLoad = false
    · rw [if_pos h0] at hcl
      have hcr : c ∈ rest := by
        rcases List.mem_cons.mp hc with hce | hcr
        · rw [hce] at hrl; rw [hrl] at h0; cases h0
        · exact hcr
      exact ih f b hn2 hcl hcr
    · rw [if_neg h0] at hcl
      cases hA0 : goAtoi (if c0.limit = [] then eff else c0.limit) with
      | some count =>
        rw [hA0] at hcl
        cases hR : classifyLoop cpus eff rest with
        | none => rw [hR] at hcl; cases hcl
        | some fb =>
          obtain ⟨f0, b0⟩ := fb
          rw [hR] at hcl
          simp only [Option.some_inj, Prod.mk.injEq] at hcl
          have hcr : c ∈ rest := by
            rcases List.mem_cons.mp hc with hce | hcr
            · rw [← hce] at hA0; rw [hA0] at hA; cases hA
            · exact hcr
          rw [← hcl.1]
          exact ih f0 b0 hn2 hR hcr
      | none =>
        rw [hA0] at hcl
        cases hP0 : parseCpuset (if c0.limit = [] then eff else c0.limit) with
        | none => rw [hP0] at hcl; cases hcl
        | some pc0 =>
          rw [hP0] at hcl
          cases hR : classifyLoop cpus eff rest with
          | none => rw [hR] at hcl; cases hcl
          | some fb =>
            obtain ⟨f0, b0⟩ := fb
            rw [hR] at hcl
            simp only [Option.some_inj, Prod.mk.injEq] at hcl
            rw [← hcl.1, List.filter_append]
            rcases List.mem_cons.mp hc with hce | hcr
            · rw [← hce] at hP0
              rw [← hce]
              have hpc : pc0 = pc := by
                rw [hP0] at hP
                exact Option.some_inj.mp hP
              rw [hpc, filter_map_pair_self c (pc.filter (fun nr => nr ∈ cpus))]
              have hrest0 : f0.filter (fun pr => pr.2 = c) = [] := by
                refine List.filter_eq_nil_iff.mpr ?_
                intro pr hpr
                have hmem := classify_fixed_mem cpus eff rest f0 b0 hR pr hpr
                have hident : ¬ pr.2.ident = c.ident := by
                  intro hid
                  rw [hce] at hid
                  exact hn1 (hid ▸ List.mem_map_of_mem BalCtn.ident hmem)
                simpa using ne_of_ident_ne pr.2 c hident
              rw [hrest0, List.append_nil]
            · have hne : ¬ c0 = c := by
                refine ne_of_ident_ne c0 c ?_
                intro hid
                rw [hid] at hn1
                exact hn1 (List.mem_map_of_mem BalCtn.ident hcr)
              rw [filter_map_pair_other c c0 hne, List.nil_append]
              exact ih f0 b0 hn2 hR hcr

/-- C3 (amended): when `deviceTaskBalance` completes (no cpuset parse
error aborted it) and container identities are distinct, (a) every
`cpuset.cpus` write targets a container still running at apply time;
(b) a running container whose (substituted) limit fails `strconv.Atoi`
but parses as a cpuset is written its requested cpus restricted to the
effective set, sorted as strings and comma-joined, whenever that
restriction is nonempty; (c) every balanced-phase assignment picks at
most `min(count, len(cpus))` cpus — exactly that many while cpus
suffice, all cpus when the parsed count is negative — all drawn from
the effective set, and each picked cpu's usage counter (at that
container's turn) is no larger than any unpicked cpu's, for any scan
order consistent with Go's sort of the usage slice; the pinned loop
contributes no write for a container whose restriction is empty, and a
balanced container with count 0 gets no write. -/
theorem deviceTaskBalance_spec (ord : BalanceOracle) (hord : oracleOK ord)
    (cpus : List Int) (ctns : List BalCtn) (ws : List (BalCtn × List Char))
    (hn : (ctns.map BalCtn.ident).Nodup)
    (hw : deviceTaskBalance ord cpus ctns = some ws) :
    (∀ e ∈ ws, e.1.runningApply = true) ∧
    (∀ c ∈ ctns, c.runningLoad = true → c.runningApply = true →
      goAtoi (limOf cpus c) = none →
      ∀ pc, parseCpuset (limOf cpus c) = some pc →
        ¬ pc.filter (fun nr => nr ∈ cpus) = [] →
        (c, joinComma (sortStrings
          ((pc.filter (fun nr => nr ∈ cpus)).map intToDec))) ∈ ws) ∧
    (∀ f b, classifyLoop cpus (joinComma (cpus.map intToDec)) ctns = some (f, b) →
      ∀ e ∈ balancedPhase ord cpus b (pinnedUsage cpus f),
        (∃ cnt, (e.1, cnt) ∈ b ∧
          e.2.1.length =
            (if cnt < 0 then cpus.length else min cnt.toNat cpus.length)) ∧
        (∀ p ∈ e.2.1, p ∈ cpus) ∧
        (∀ p ∈ e.2.1, ∀ q ∈ cpus, ¬ q ∈ e.2.1 →
          countIn e.2.2 p ≤ countIn e.2.2 q) ∧
        (e.1.runningApply = true →
          (e.1, joinComma (sortStrings (e.2.1.map intToDec))) ∈ ws)) := by
  unfold deviceTaskBalance at hw
  cases hcl0 : classifyLoop cpus (joinComma (cpus.map intToDec)) ctns with
  | none => rw [hcl0] at hw; cases hw
  | some fb =>
    obtain ⟨f1, b1⟩ := fb
    rw [hcl0] at hw
    have hws :
        (((pinnedPhase f1 ++
            (balancedPhase ord cpus b1 (pinnedUsage cpus f1)).map
              (fun e => (e.1, e.2.1))).filter
          (fun e => e.1.runningApply)).map
            (fun e => (e.1, joinComma (sortStrings (e.2.map intToDec))))) = ws :=
      Option.some_inj.mp hw
    refine ⟨?_, ?_, ?_⟩
    · intro e he
      rw [← hws] at he
      obtain ⟨e0, he0, hee⟩ := List.mem_map.mp he
      rw [← hee]
      exact (List.mem_filter.mp he0).2
    · intro c hc hrl happ hA pc hP hne
      unfold limOf at hA hP
      have hfilt := classify_fixed_of_pinned cpus (joinComma (cpus.map intToDec))
        c hrl hA pc hP ctns f1 b1 hn hcl0 hc
      have hlook : lookupPin (pinnedPhase f1) c =
          some (pc.filter (fun nr => nr ∈ cpus)) := by
        rw [pinnedPhase_lookup, hfilt]
        have hmm : ((pc.filter (fun nr => nr ∈ cpus)).map
            (fun nr => (nr, c))).map (fun pr => pr.1) =
            pc.filter (fun nr => nr ∈ cpus) := by
          simp [List.map_map, Function.comp_def]
        rw [hmm, if_neg hne]
      have hmemp := lookupPin_mem (pinnedPhase f1) c
        (pc.filter (fun nr => nr ∈ cpus)) hlook
      have hmem3 : (c, pc.filter (fun nr => nr ∈ cpus)) ∈
          (pinnedPhase f1 ++
            (balancedPhase ord cpus b1 (pinnedUsage cpus f1)).map
              (fun e => (e.1, e.2.1))).filter (fun e => e.1.runningApply) :=
        List.mem_filter.mpr ⟨List.mem_append_left _ hmemp, happ⟩
      rw [← hws]
      exact List.mem_map.mpr ⟨(c, pc.filter (fun nr => nr ∈ cpus)), hmem3, rfl⟩
    · intro f b hclX e he
      simp only [Option.some_inj, Prod.mk.injEq] at hclX
      obtain ⟨hf, hb⟩ := hclX
      subst hf
      subst hb
      obtain ⟨⟨cnt, hmem, _, hlen⟩, hsub, hleast⟩ :=
        balancedPhase_spec ord hord cpus b1 (pinnedUsage cpus f1) e he
      refine ⟨⟨cnt, hmem, hlen⟩, hsub, hleast, ?_⟩
      intro happ
      have hm3 : (e.1, e.2.1) ∈
          (pinnedPhase f1 ++
            (balancedPhase ord cpus b1 (pinnedUsage cpus f1)).map
              (fun e => (e.1, e.2.1))).filter (fun e => e.1.runningApply) :=
        List.mem_filter.mpr
          ⟨List.mem_append_right _ (List.mem_map_of_mem _ he), happ⟩
      rw [← hws]
      exact List.mem_map.mpr ⟨(e.1, e.2.1), hm3, rfl⟩

theorem deviceTaskBalance_spec_witness :
    oracleOK sortCpusByCount ∧
    ∀ e ∈ [((⟨1, true, true, "0-0".data⟩ : BalCtn), "0".data)],
      e.1.runningApply = true := by
  refine ⟨oracleOK_sortCpusByCount, ?_⟩
  exact (deviceTaskBalance_spec sortCpusByCount oracleOK_sortCpusByCount [0, 1]
    [⟨1, true, true, "0-0".data⟩] [(⟨1, true, true, "0-0".data⟩, "0".data)]
    (by decide) (by decide)).1

end LxdSpec
